import Mathlib

/-!
Verification of the range-coalescing fill cache and its concurrent query
processor, shallowly embedded from `src/main.rs` and `src/server.rs`.

Modelling conventions:
* Timestamps are `Int` (the Rust `i64` epoch seconds).  Fill times have
  second resolution (the CSV format is `%Y-%m-%d %H:%M:%S`), so a
  `chrono::DateTime` is represented by its epoch second.
* `rust_decimal::Decimal` values are modelled by `Rat`; the fallible
  `Decimal::to_f64` conversion applied to `price * quantity` is an
  abstract parameter `conv : Rat → Option Rat`, and `f64` arithmetic is
  modelled by exact rational arithmetic.
* Panics are modelled explicitly: `QErr.tsPanic` is the
  `DateTime::from_timestamp(..).unwrap()` panic inside the aggregation
  functions, `QErr.addPanic` the `unreachable!` branch of `Count::add`,
  and `QErr.backend` a backend fetch failure (invalid timestamp).
* The mutex-guarded LRU cache is modelled by explicit state passing; an
  `Exec` record carries the cache plus a trace of lock and fetch events,
  which lets lock-discipline and re-fetch claims be stated.  Lock
  acquisitions and releases are traced in program order; a guard dropped
  during error propagation is not traced (the resolution aborts there).
* `HashMap` iteration order is unspecified in Rust; buckets are modelled
  as association lists iterated in list order, with insertions appending
  (or replacing in place), which realizes one admissible order.
-/

/-- Epoch seconds of `chrono::DateTime::<Utc>::MIN_UTC`, the least
timestamp accepted by `DateTime::from_timestamp`. -/
def tsMin : Int := -8334601228800

/-- Epoch seconds of `chrono::DateTime::<Utc>::MAX_UTC`, the greatest
timestamp accepted by `DateTime::from_timestamp`. -/
def tsMax : Int := 8210266876799

/-- Whether `DateTime::from_timestamp(t, 0)` succeeds. -/
def validTs (t : Int) : Prop := tsMin ≤ t ∧ t ≤ tsMax

instance validTs.dec (t : Int) : Decidable (validTs t) := by
  unfold validTs; infer_instance

/-- One executed trade record (`server::Fill`). -/
structure Fill where
  time : Int
  direction : Int
  price : Rat
  quantity : Rat
  sequence_number : Nat
deriving DecidableEq, Repr

/-- Membership of a fill in the half-open-at-start interval `(a, b]`,
the filter used by `server::get_fills_api` and the aggregators. -/
def inRange (a b : Int) (f : Fill) : Bool := decide (a < f.time) && decide (f.time ≤ b)

/-- The fills of the backend dataset lying in `(a, b]`. -/
def backendFills (allFills : List Fill) (a b : Int) : List Fill :=
  allFills.filter (inRange a b)

/-- Error outcomes of resolving one query: a backend fetch failure, the
timestamp-unwrap panic, or the mismatched-tag panic of `Count::add`. -/
inductive QErr where
  | backend
  | tsPanic
  | addPanic
deriving DecidableEq, Repr

instance exceptDecEq {e a : Type} [DecidableEq e] [DecidableEq a] :
    DecidableEq (Except e a) := fun x y =>
  match x, y with
  | .ok u, .ok v =>
    if h : u = v then .isTrue (by rw [h])
    else .isFalse (fun hh => h (by injection hh))
  | .error u, .error v =>
    if h : u = v then .isTrue (by rw [h])
    else .isFalse (fun hh => h (by injection hh))
  | .ok _, .error _ => .isFalse (fun hh => Except.noConfusion hh)
  | .error _, .ok _ => .isFalse (fun hh => Except.noConfusion hh)

/-- Model of `server::get_fills_api`: validates both timestamps (in
source order), then returns the fills in `(a, b]`; the simulated latency
sleep is irrelevant to the values computed and is not modelled. -/
def get_fills_api (allFills : List Fill) (a b : Int) : Except QErr (List Fill) :=
  if validTs a then
    if validTs b then .ok (backendFills allFills a b)
    else .error .backend
  else .error .backend

/-- The tagged aggregate value (`Count` in `main.rs`), with `f64`
volumes modelled by `Rat`. -/
inductive Count where
  | Trades (n : Nat)
  | Volume (v : Rat)
deriving DecidableEq, Repr

/-- Model of `Count::add`; `none` is the `unreachable!` panic on
mismatched tags. -/
def Count.add : Count → Count → Option Count
  | .Trades a, .Trades b => some (.Trades (a + b))
  | .Volume a, .Volume b => some (.Volume (a + b))
  | _, _ => none

/-- A query time range (`TimeRange`), endpoints in epoch seconds,
denoting the interval `(startTs, endTs]`. -/
structure TimeRange where
  startTs : Int
  endTs : Int
deriving DecidableEq, Repr

/-- The four query kinds (`QueryType`). -/
inductive QueryType where
  | TakerTrades
  | MarketBuys
  | MarketSells
  | TradingVolume
deriving DecidableEq, Repr

/-- Fixed context of a resolution: the abstracted `Decimal → f64`
conversion and the immutable backend dataset. -/
structure Env where
  conv : Rat → Option Rat
  allFills : List Fill

/-- Model of `CountFilter::filter_fills`: counts distinct
`sequence_number` values among the fills in `(startTs, endTs]` passing
`p`.  `none` models the `from_timestamp(..).unwrap()` panic on an
unrepresentable endpoint (the source panics lazily inside the filter
closure; this model checks both endpoints up front, so it panics at
least as often as the source, which is the conservative direction for
the no-panic claims proved below). -/
def filter_fills (fills : List Fill) (r : TimeRange) (p : Fill → Bool) : Option Nat :=
  if validTs r.startTs ∧ validTs r.endTs then
    some ((((fills.filter (inRange r.startTs r.endTs)).filter p).map
      (fun f => f.sequence_number)).dedup.length)
  else none

/-- Model of `CountFilter::taker_trades`. -/
def taker_trades (fills : List Fill) (r : TimeRange) : Option Nat :=
  filter_fills fills r (fun _ => true)

/-- Model of `CountFilter::market_buys` (direction `1` is a buy). -/
def market_buys (fills : List Fill) (r : TimeRange) : Option Nat :=
  filter_fills fills r (fun f => decide (f.direction = 1))

/-- Model of `CountFilter::market_sells` (direction `-1` is a sell). -/
def market_sells (fills : List Fill) (r : TimeRange) : Option Nat :=
  filter_fills fills r (fun f => decide (f.direction = -1))

/-- Model of `CountFilter::trading_volume`: sums `conv (price * quantity)`
over the fills in `(startTs, endTs]`, silently skipping fills whose
conversion fails; `none` is the timestamp-unwrap panic. -/
def trading_volume (conv : Rat → Option Rat) (fills : List Fill) (r : TimeRange) :
    Option Rat :=
  if validTs r.startTs ∧ validTs r.endTs then
    some (((fills.filter (inRange r.startTs r.endTs)).filterMap
      (fun f => conv (f.price * f.quantity))).sum)
  else none

/-- Model of `Query::count_from_range`: dispatch on the query kind
(the `From` instances of `Count` become the constructors). -/
def count_from_range (env : Env) (qt : QueryType) (fills : List Fill) (r : TimeRange) :
    Option Count :=
  match qt with
  | .TradingVolume => (trading_volume env.conv fills r).map .Volume
  | .MarketBuys => (market_buys fills r).map .Trades
  | .MarketSells => (market_sells fills r).map .Trades
  | .TakerTrades => (taker_trades fills r).map .Trades

/-- `SLOT_SIZE` from `main.rs`. -/
def SLOT_SIZE : Int := 4500

/-- `CACHE_SIZE` from `main.rs`. -/
def CACHE_SIZE : Nat := 10000

/-- The slot bucket id computed in `Query::time_slots_map`:
`current_time / slot_size * slot_size` with Rust `/`, i.e. division
truncating toward zero (`Int.tdiv`). -/
def slotOf (t : Int) : Int := Int.tdiv t SLOT_SIZE * SLOT_SIZE

/-- The `next_time` computed by one iteration of `Query::time_slots_map`:
the end of the current slot, clamped to the query end. -/
def nextTime (stop cur : Int) : Int :=
  if stop < slotOf cur + SLOT_SIZE then stop else slotOf cur + SLOT_SIZE

/-- Fuel-driven unfolding of the `while` loop of `Query::time_slots_map`,
producing `(slot, current_time, next_time)` triples in generation order.
Fuel only bounds the iteration count; `time_slots_map` supplies enough
fuel, so this computes exactly the loop's slot decomposition. -/
def timeSlotsF : Nat → Int → Int → List (Int × Int × Int)
  | 0, _, _ => []
  | fuel + 1, stop, cur =>
    if cur < stop then (slotOf cur, cur, nextTime stop cur) :: timeSlotsF fuel stop (nextTime stop cur)
    else []

/-- Model of `Query::time_slots_map`.  The Rust code stores the pieces in
a `HashMap` and iterates it in unspecified order; the slot keys are
pairwise distinct (proved below), and this model iterates the pieces in
generation order, one admissible iteration order. -/
def time_slots_map (r : TimeRange) : List (Int × Int × Int) :=
  timeSlotsF (r.endTs - r.startTs).toNat r.endTs r.startTs

/-- A slot bucket: the `HashMap<TimeRange, Vec<Fill>>` of one slot,
modelled as an association list. -/
abbrev Bucket := List (TimeRange × List Fill)

/-- `HashMap::insert` on a bucket: replace the entry with an equal key
in place, otherwise add the entry (appended, one admissible order). -/
def bucketInsert (b : Bucket) (r : TimeRange) (fs : List Fill) : Bucket :=
  if b.any (fun e => decide (e.1 = r)) then
    b.map (fun e => if e.1 = r then (r, fs) else e)
  else b ++ [(r, fs)]

/-- The LRU cache `LruCache<Slot, HashMap<TimeRange, Vec<Fill>>>`,
most-recently-used entry first. -/
structure Cache where
  entries : List (Int × Bucket)
deriving DecidableEq, Repr

/-- The empty cache a fresh `Processor` starts with. -/
def emptyCache : Cache := ⟨[]⟩

/-- Raw association lookup of a slot's bucket. -/
def Cache.lookup (c : Cache) (k : Int) : Option Bucket :=
  match c.entries.find? (fun kb => decide (kb.1 = k)) with
  | some kb => some kb.2
  | none => none

/-- Move slot `k` (with bucket `b`) to the most-recently-used position. -/
def Cache.promote (c : Cache) (k : Int) (b : Bucket) : Cache :=
  ⟨(k, b) :: c.entries.filter (fun kb => decide (kb.1 ≠ k))⟩

/-- `LruCache::get`: looks the slot up and marks it most recently used. -/
def Cache.get (c : Cache) (k : Int) : Option Bucket × Cache :=
  match c.lookup k with
  | some b => (some b, c.promote k b)
  | none => (none, c)

/-- `LruCache::put`: inserts the bucket as most recently used and evicts
the least-recently-used entry when the capacity is exceeded. -/
def Cache.put (c : Cache) (k : Int) (b : Bucket) : Cache :=
  let es := (k, b) :: c.entries.filter (fun kb => decide (kb.1 ≠ k))
  ⟨if CACHE_SIZE < es.length then es.dropLast else es⟩

/-- The `!done` insertion step of `Query::get_count` (lines 318-328):
`get_mut` (which promotes) and insert into the existing bucket, else
`put` a fresh singleton bucket. -/
def Cache.insertFills (c : Cache) (k : Int) (r : TimeRange) (fs : List Fill) : Cache :=
  match c.lookup k with
  | some b => c.promote k (bucketInsert b r fs)
  | none => c.put k (bucketInsert [] r fs)

/-- The `to_update` application step of `Query::get_count` (lines
331-339): if the bucket is still present, insert every gap range;
if it is absent the updates are dropped. -/
def Cache.updateBucket (c : Cache) (k : Int) (tu : List (TimeRange × List Fill)) : Cache :=
  match c.lookup k with
  | some b => c.promote k (tu.foldl (fun acc rf => bucketInsert acc rf.1 rf.2) b)
  | none => c

/-- Events of a resolution: mutex acquisitions and releases of the cache
lock, and backend fetches.  `fetchGap` records the two gap fetches of
the containing branch (lines 227-234), `fetchMiss` the remaining-range
fetch of the `!done` branch (line 306); both call `server::get_fills_api`. -/
inductive Event where
  | lockAcquire
  | lockRelease
  | fetchGap (a b : Int)
  | fetchMiss (a b : Int)
deriving DecidableEq, Repr

/-- The shared mutable state of a resolution: the cache behind the mutex
plus the trace of events so far. -/
structure Exec where
  cache : Cache
  trace : List Event
deriving Repr

/-- Append one event to the trace. -/
def Exec.emit (ex : Exec) (e : Event) : Exec :=
  { ex with trace := ex.trace ++ [e] }

/-- The mutable per-slot loop state of `Query::get_count`: the remaining
query bounds, the running count, and the pending gap insertions. -/
structure ScanSt where
  qs : Int
  qe : Int
  count : Option Count
  toUpdate : List (TimeRange × List Fill)
deriving Repr

/-- Merging a freshly computed count into the running total
(the `if let Some(c) = count.as_mut() .. else ..` pattern); `none`
models the `unreachable!` panic of `Count::add`. -/
def mergeCount : Option Count → Count → Option Count
  | none, c => some c
  | some a, c => a.add c

/-- The scan over a bucket's cached ranges (the `for` loop of
`Query::get_count`, lines 189-301), transcribed branch by branch.
Returns the final loop state and whether `done` was set (a `break`),
with fetch events traced; errors abort as in the source (`?`). -/
def scan (env : Env) (qt : QueryType) :
    List (TimeRange × List Fill) → ScanSt → Exec →
    Except QErr (ScanSt × Bool) × Exec
  | [], st, ex => (.ok (st, false), ex)
  | (cr, fills) :: rest, st, ex =>
    if st.qs ≤ cr.endTs ∧ cr.startTs ≤ st.qe then
      if cr.startTs ≤ st.qs ∧ st.qe ≤ cr.endTs then
        -- Contained: the cached range fully covers the remaining query.
        match count_from_range env qt fills ⟨st.qs, st.qe⟩ with
        | none => (.error .tsPanic, ex)
        | some c =>
          match mergeCount st.count c with
          | none => (.error .addPanic, ex)
          | some cnt => (.ok ({ st with count := some cnt }, true), ex)
      else if st.qs ≤ cr.startTs ∧ cr.endTs ≤ st.qe then
        -- Containing: the remaining query fully covers the cached range;
        -- count it whole, fetch the two gaps (under the lock), record
        -- them for insertion, and break.
        match count_from_range env qt fills ⟨cr.startTs, cr.endTs⟩ with
        | none => (.error .tsPanic, ex)
        | some c =>
          match mergeCount st.count c with
          | none => (.error .addPanic, ex)
          | some cnt =>
            let ex := ex.emit (.fetchGap st.qs cr.startTs)
            match get_fills_api env.allFills st.qs cr.startTs with
            | .error e => (.error e, ex)
            | .ok before =>
              let ex := ex.emit (.fetchGap cr.endTs st.qe)
              match get_fills_api env.allFills cr.endTs st.qe with
              | .error e => (.error e, ex)
              | .ok after =>
                match count_from_range env qt before ⟨st.qs, cr.startTs⟩ with
                | none => (.error .tsPanic, ex)
                | some bc =>
                  match count_from_range env qt after ⟨cr.endTs, st.qe⟩ with
                  | none => (.error .tsPanic, ex)
                  | some ac =>
                    let tu := st.toUpdate ++
                      [(⟨st.qs, cr.startTs⟩, before), (⟨cr.endTs, st.qe⟩, after)]
                    -- The running count is `some cnt` here (set just
                    -- above), so the source's dead `else` arm (lines
                    -- 257-259, which loses `after_count` on a copy)
                    -- cannot be reached; the live arm does two adds.
                    match cnt.add bc with
                    | none => (.error .addPanic, ex)
                    | some cnt2 =>
                      match cnt2.add ac with
                      | none => (.error .addPanic, ex)
                      | some cnt3 =>
                        (.ok ({ st with count := some cnt3, toUpdate := tu }, true), ex)
      else if st.qs ≤ cr.startTs ∧ st.qe ≤ cr.endTs then
        -- Overlap before: count the cached overlap, shrink the end.
        match count_from_range env qt fills ⟨cr.startTs, st.qe⟩ with
        | none => (.error .tsPanic, ex)
        | some c =>
          match mergeCount st.count c with
          | none => (.error .addPanic, ex)
          | some cnt => scan env qt rest { st with qe := cr.startTs, count := some cnt } ex
      else if cr.startTs ≤ st.qs ∧ cr.endTs ≤ st.qe then
        -- Overlap after: count the cached overlap, shrink the start.
        match count_from_range env qt fills ⟨st.qs, cr.endTs⟩ with
        | none => (.error .tsPanic, ex)
        | some c =>
          match mergeCount st.count c with
          | none => (.error .addPanic, ex)
          | some cnt => scan env qt rest { st with qs := cr.endTs, count := some cnt } ex
      else
        -- Unreachable: the four cases above are exhaustive for
        -- overlapping ranges (proved below); the Rust `if` chain simply
        -- falls through to the next cached range.
        scan env qt rest st ex
    else scan env qt rest st ex

/-- The `!done` branch of `Query::get_count` (lines 305-329): the lock
is released at this point; fetch the remaining range, merge its count,
then reacquire the lock to insert it. -/
def missStep (env : Env) (qt : QueryType) (slot : Int) (st : ScanSt) (ex : Exec) :
    Except QErr (Option Count) × Exec :=
  let ex := ex.emit (.fetchMiss st.qs st.qe)
  match get_fills_api env.allFills st.qs st.qe with
  | .error e => (.error e, ex)
  | .ok fs =>
    match count_from_range env qt fs ⟨st.qs, st.qe⟩ with
    | none => (.error .tsPanic, ex)
    | some c =>
      match mergeCount st.count c with
      | none => (.error .addPanic, ex)
      | some cnt =>
        let ex := ex.emit .lockAcquire
        let ex := { ex with cache := ex.cache.insertFills slot ⟨st.qs, st.qe⟩ fs }
        let ex := ex.emit .lockRelease
        (.ok (some cnt), ex)

/-- The `to_update` block of `Query::get_count` (lines 331-339). -/
def updateStep (slot : Int) (st : ScanSt) (ex : Exec) : Exec :=
  if st.toUpdate.isEmpty then ex
  else
    let ex := ex.emit .lockAcquire
    let ex := { ex with cache := ex.cache.updateBucket slot st.toUpdate }
    ex.emit .lockRelease

/-- One iteration of the per-slot loop of `Query::get_count` (lines
180-340): lock and scan the slot's bucket, release, handle a miss,
then apply pending gap insertions. -/
def processSlot (env : Env) (qt : QueryType) (slot a b : Int) (count0 : Option Count)
    (ex : Exec) : Except QErr (Option Count) × Exec :=
  let ex1 := ex.emit .lockAcquire
  let got := ex1.cache.get slot
  let ex2 := { ex1 with cache := got.2 }
  let scanRes :=
    match got.1 with
    | some bucket => scan env qt bucket ⟨a, b, count0, []⟩ ex2
    | none => (.ok ((⟨a, b, count0, []⟩ : ScanSt), false), ex2)
  match scanRes with
  | (.error e, ex3) => (.error e, ex3)
  | (.ok (st, done), ex3) =>
    let ex4 := ex3.emit .lockRelease
    if done then (.ok st.count, updateStep slot st ex4)
    else
      match missStep env qt slot st ex4 with
      | (.error e, ex5) => (.error e, ex5)
      | (.ok cnt, ex5) => (.ok cnt, updateStep slot st ex5)

/-- The fold of `Query::get_count` over the slot pieces. -/
def get_countGo (env : Env) (qt : QueryType) :
    List (Int × Int × Int) → Option Count → Exec →
    Except QErr (Option Count) × Exec
  | [], cnt, ex => (.ok cnt, ex)
  | (slot, a, b) :: rest, cnt, ex =>
    match processSlot env qt slot a b cnt ex with
    | (.error e, ex2) => (.error e, ex2)
    | (.ok cnt2, ex2) => get_countGo env qt rest cnt2 ex2

/-- Model of `Query::get_count`: resolve the query range against the
cache, returning the aggregate (`none` when the range produced no slot
pieces) together with the final cache and event trace. -/
def get_count (env : Env) (qt : QueryType) (r : TimeRange) (cache : Cache) :
    Except QErr (Option Count) × Exec :=
  get_countGo env qt (time_slots_map r) none ⟨cache, []⟩

/-! ### Arithmetic facts about the slot computation -/

/-- Rust truncating division: `t.tdiv 4500 * 4500` exceeds `t - 4500`. -/
theorem slotOf_gt (t : Int) : t - SLOT_SIZE < slotOf t := by
  unfold slotOf SLOT_SIZE
  rcases le_or_lt 0 t with ht | ht
  · rw [Int.tdiv_eq_ediv ht (by norm_num)]
    omega
  · have h : t.tdiv 4500 = -((-t).tdiv 4500) := by
      rw [← Int.neg_tdiv, neg_neg]
    rw [h, Int.tdiv_eq_ediv (by omega) (by norm_num)]
    omega

/-- For nonnegative `t` the slot start is at most `t`. -/
theorem slotOf_le (t : Int) (ht : 0 ≤ t) : slotOf t ≤ t := by
  unfold slotOf SLOT_SIZE
  rw [Int.tdiv_eq_ediv ht (by norm_num)]
  omega

/-- For negative `t`, truncation rounds toward zero, so the slot start
is at least `t`. -/
theorem le_slotOf (t : Int) (ht : t < 0) : t ≤ slotOf t := by
  unfold slotOf SLOT_SIZE
  have h : t.tdiv 4500 = -((-t).tdiv 4500) := by
    rw [← Int.neg_tdiv, neg_neg]
  rw [h, Int.tdiv_eq_ediv (by omega) (by norm_num)]
  omega

/-- A multiple of the slot size is its own slot start. -/
theorem slotOf_mul (k : Int) : slotOf (k * SLOT_SIZE) = k * SLOT_SIZE := by
  unfold slotOf SLOT_SIZE
  rw [show ((4500 : Int)) = ((4500 : Int)) from rfl, Int.mul_tdiv_cancel _ (by norm_num)]

theorem nextTime_gt (stop cur : Int) (h : cur < stop) : cur < nextTime stop cur := by
  unfold nextTime
  have := slotOf_gt cur
  split <;> [exact h; omega]

theorem nextTime_le (stop cur : Int) (_h : cur < stop) : nextTime stop cur ≤ stop := by
  unfold nextTime
  have := slotOf_gt cur
  split <;> omega

/-- The fuel argument is irrelevant once it dominates the remaining
interval length, so `time_slots_map` computes the full loop. -/
theorem timeSlotsF_fuel (stop : Int) :
    ∀ f1 f2 cur, (stop - cur).toNat ≤ f1 → (stop - cur).toNat ≤ f2 →
      timeSlotsF f1 stop cur = timeSlotsF f2 stop cur := by
  intro f1
  induction f1 with
  | zero =>
    intro f2 cur h1 _
    have hcs : ¬ cur < stop := by omega
    cases f2 with
    | zero => rfl
    | succ f2 => simp [timeSlotsF, hcs]
  | succ f1 ih =>
    intro f2 cur h1 h2
    cases f2 with
    | zero =>
      have hcs : ¬ cur < stop := by omega
      simp [timeSlotsF, hcs]
    | succ f2 =>
      by_cases hcs : cur < stop
      · have hgt := nextTime_gt stop cur hcs
        have hle := nextTime_le stop cur hcs
        simp only [timeSlotsF, hcs, if_true]
        have := ih f2 (nextTime stop cur) (by omega) (by omega)
        rw [this]
      · simp [timeSlotsF, hcs]

/-! ### Count algebra -/

/-- The tag of a count: `false` for trade counts, `true` for volumes. -/
def Count.tag : Count → Bool
  | .Trades _ => false
  | .Volume _ => true

/-- The tag of the count a query kind produces. -/
def qtTag : QueryType → Bool
  | .TradingVolume => true
  | _ => false

/-- Total merge of two counts; agrees with `Count.add` on equal tags. -/
def addC : Count → Count → Count
  | .Trades a, .Trades b => .Trades (a + b)
  | .Volume a, .Volume b => .Volume (a + b)
  | a, _ => a

/-- Total merge into an optional running count. -/
def mergeO : Option Count → Count → Count
  | none, c => c
  | some a, c => addC a c

theorem Count.add_eq_addC (a b : Count) (h : a.tag = b.tag) :
    a.add b = some (addC a b) := by
  cases a <;> cases b <;> simp_all [Count.tag, Count.add, addC]

theorem addC_tag (a b : Count) : (addC a b).tag = a.tag := by
  cases a <;> cases b <;> simp [addC, Count.tag]

theorem addC_comm (a b : Count) (h : a.tag = b.tag) : addC a b = addC b a := by
  cases a <;> cases b <;> simp_all [Count.tag, addC, Nat.add_comm, add_comm]

theorem addC_assoc (a b c : Count) (h1 : a.tag = b.tag) (h2 : b.tag = c.tag) :
    addC (addC a b) c = addC a (addC b c) := by
  cases a <;> cases b <;> cases c <;> simp_all [Count.tag, addC] <;> ring

/-- The running count of a resolution of kind `qt` always carries the
kind's tag. -/
def CountInv (qt : QueryType) (x : Option Count) : Prop :=
  ∀ a, x = some a → a.tag = qtTag qt

theorem CountInv.none (qt : QueryType) : CountInv qt none := by
  intro a h; cases h

theorem mergeCount_eq (x : Option Count) (c : Count)
    (hx : ∀ a, x = some a → a.tag = c.tag) :
    mergeCount x c = some (mergeO x c) := by
  cases x with
  | none => rfl
  | some a => exact Count.add_eq_addC a c (hx a rfl)

theorem mergeO_tag (x : Option Count) (c : Count)
    (hx : ∀ a, x = some a → a.tag = c.tag) : (mergeO x c).tag = c.tag := by
  cases x with
  | none => rfl
  | some a => rw [mergeO, addC_tag]; exact hx a rfl

/-! ### The specification-level aggregate value -/

/-- The direction filter used for each trade-count kind. -/
def qtFilter : QueryType → Fill → Bool
  | .TakerTrades, _ => true
  | .MarketBuys, f => decide (f.direction = 1)
  | .MarketSells, f => decide (f.direction = -1)
  | .TradingVolume, _ => true

/-- The set of distinct sequence numbers among the fills of `l` in
`(a, b]` passing `p`. -/
def distinctSeqs (l : List Fill) (p : Fill → Bool) (a b : Int) : Finset Nat :=
  (((l.filter (inRange a b)).filter p).map (fun f => f.sequence_number)).toFinset

/-- The summed converted notional of the fills of `l` in `(a, b]`. -/
def volSum (conv : Rat → Option Rat) (l : List Fill) (a b : Int) : Rat :=
  ((l.filter (inRange a b)).filterMap (fun f => conv (f.price * f.quantity))).sum

/-- The total aggregate value of kind `qt` over the fills of `l`
restricted to `(a, b]`. -/
def aggVal (env : Env) (qt : QueryType) (l : List Fill) (a b : Int) : Count :=
  match qt with
  | .TradingVolume => .Volume (volSum env.conv l a b)
  | _ => .Trades (distinctSeqs l (qtFilter qt) a b).card

theorem aggVal_tag (env : Env) (qt : QueryType) (l : List Fill) (a b : Int) :
    (aggVal env qt l a b).tag = qtTag qt := by
  cases qt <;> rfl

/-- On valid endpoints, `count_from_range` computes exactly the
specification aggregate. -/
theorem count_from_range_eq (env : Env) (qt : QueryType) (fills : List Fill)
    (r : TimeRange) (hva : validTs r.startTs) (hvb : validTs r.endTs) :
    count_from_range env qt fills r = some (aggVal env qt fills r.startTs r.endTs) := by
  have hv : validTs r.startTs ∧ validTs r.endTs := ⟨hva, hvb⟩
  cases qt <;>
    simp [count_from_range, taker_trades, market_buys, market_sells, trading_volume,
      filter_fills, hv, aggVal, distinctSeqs, volSum, qtFilter, ← List.card_toFinset]

/-- On an invalid endpoint, `count_from_range` is the unwrap panic. -/
theorem count_from_range_invalid (env : Env) (qt : QueryType) (fills : List Fill)
    (r : TimeRange) (h : ¬(validTs r.startTs ∧ validTs r.endTs)) :
    count_from_range env qt fills r = none := by
  cases qt <;>
    simp [count_from_range, taker_trades, market_buys, market_sells, trading_volume,
      filter_fills, h]

theorem count_from_range_some_valid (env : Env) (qt : QueryType) (fills : List Fill)
    (r : TimeRange) (c : Count) (h : count_from_range env qt fills r = some c) :
    validTs r.startTs ∧ validTs r.endTs := by
  by_contra hv
  rw [count_from_range_invalid env qt fills r hv] at h
  cases h

/-- Restricting an already backend-filtered slice to a sub-interval
gives the same fills as restricting the whole dataset. -/
theorem filter_backendFills (l : List Fill) (a b a' b' : Int)
    (h1 : a' ≤ a) (h2 : b ≤ b') :
    (backendFills l a' b').filter (inRange a b) = l.filter (inRange a b) := by
  unfold backendFills
  rw [List.filter_filter]
  apply List.filter_congr
  intro f _
  by_cases hf : inRange a b f = true
  · have : inRange a' b' f = true := by
      simp only [inRange, Bool.and_eq_true, decide_eq_true_eq] at hf ⊢
      omega
    simp [hf, this]
  · simp [Bool.and_eq_false_iff, hf]

/-- The aggregate over a backend slice covering `(a, b]` equals the
aggregate over the full dataset. -/
theorem aggVal_restrict (env : Env) (qt : QueryType) (l : List Fill) (a b a' b' : Int)
    (h1 : a' ≤ a) (h2 : b ≤ b') :
    aggVal env qt (backendFills l a' b') a b = aggVal env qt l a b := by
  cases qt <;>
    simp [aggVal, distinctSeqs, volSum, filter_backendFills l a b a' b' h1 h2]

/-- Uniqueness of sequence numbers in the dataset, as the data model
asserts: a sequence number determines the fill time. -/
def SeqTime (l : List Fill) : Prop :=
  ∀ f ∈ l, ∀ g ∈ l, f.sequence_number = g.sequence_number → f.time = g.time

instance SeqTime.dec (l : List Fill) : Decidable (SeqTime l) := by
  unfold SeqTime; infer_instance

theorem SeqTime.mono {l l' : List Fill} (h : SeqTime l) (hsub : ∀ f ∈ l', f ∈ l) :
    SeqTime l' := by
  intro f hf g hg
  exact h f (hsub f hf) g (hsub g hg)

theorem mem_distinctSeqs (l : List Fill) (p : Fill → Bool) (a b : Int) (n : Nat) :
    n ∈ distinctSeqs l p a b ↔
      ∃ f, f ∈ l ∧ inRange a b f = true ∧ p f = true ∧ f.sequence_number = n := by
  simp only [distinctSeqs, List.mem_toFinset, List.mem_map, List.mem_filter]
  constructor
  · rintro ⟨f, ⟨⟨hf, hr⟩, hp⟩, hn⟩
    exact ⟨f, hf, hr, hp, hn⟩
  · rintro ⟨f, hf, hr, hp, hn⟩
    exact ⟨f, ⟨⟨hf, hr⟩, hp⟩, hn⟩

theorem volSum_split (conv : Rat → Option Rat) (l : List Fill) (a b c : Int)
    (hab : a ≤ b) (hbc : b ≤ c) :
    volSum conv l a b + volSum conv l b c = volSum conv l a c := by
  induction l with
  | nil => simp [volSum]
  | cons f l ih =>
    unfold volSum at ih ⊢
    by_cases h1 : inRange a b f = true
    · have h2 : inRange b c f = false := by
        simp only [inRange, Bool.and_eq_true, decide_eq_true_eq] at h1
        simp only [inRange, Bool.and_eq_false_iff, decide_eq_false_iff_not]
        omega
      have h3 : inRange a c f = true := by
        simp only [inRange, Bool.and_eq_true, decide_eq_true_eq] at h1 ⊢
        omega
      simp only [List.filter_cons, h1, h2, h3, if_true, Bool.false_eq_true, if_false,
        List.filterMap_cons]
      cases hc : conv (f.price * f.quantity) with
      | none => exact ih
      | some v =>
        simp only [List.sum_cons]
        rw [add_assoc, ih]
    · by_cases h2 : inRange b c f = true
      · have h1' : inRange a b f = false := by simp [h1]
        have h3 : inRange a c f = true := by
          simp only [inRange, Bool.and_eq_true, decide_eq_true_eq] at h2 ⊢
          omega
        simp only [List.filter_cons, h1', h2, h3, if_true, Bool.false_eq_true, if_false,
          List.filterMap_cons]
        cases hc : conv (f.price * f.quantity) with
        | none => exact ih
        | some v =>
          simp only [List.sum_cons]
          rw [← ih]
          ring
      · have h1' : inRange a b f = false := by simp [h1]
        have h2' : inRange b c f = false := by simp [h2]
        have h3 : inRange a c f = false := by
          simp only [inRange, Bool.and_eq_false_iff, decide_eq_false_iff_not] at h1' h2' ⊢
          omega
        simp only [List.filter_cons, h1', h2', h3, Bool.false_eq_true, if_false]
        exact ih

theorem distinctSeqs_split (l : List Fill) (p : Fill → Bool) (a b c : Int)
    (hst : SeqTime l) (hab : a ≤ b) (hbc : b ≤ c) :
    (distinctSeqs l p a b).card + (distinctSeqs l p b c).card =
      (distinctSeqs l p a c).card := by
  have hunion : distinctSeqs l p a c = distinctSeqs l p a b ∪ distinctSeqs l p b c := by
    ext n
    simp only [Finset.mem_union, mem_distinctSeqs]
    constructor
    · rintro ⟨f, hf, hr, hp, hn⟩
      simp only [inRange, Bool.and_eq_true, decide_eq_true_eq] at hr
      rcases le_or_lt f.time b with hfb | hfb
      · exact Or.inl ⟨f, hf, by simp [inRange]; omega, hp, hn⟩
      · exact Or.inr ⟨f, hf, by simp [inRange]; omega, hp, hn⟩
    · rintro (⟨f, hf, hr, hp, hn⟩ | ⟨f, hf, hr, hp, hn⟩) <;>
      · simp only [inRange, Bool.and_eq_true, decide_eq_true_eq] at hr
        exact ⟨f, hf, by simp [inRange]; omega, hp, hn⟩
  have hdisj : Disjoint (distinctSeqs l p a b) (distinctSeqs l p b c) := by
    rw [Finset.disjoint_left]
    intro n h1 h2
    rw [mem_distinctSeqs] at h1 h2
    obtain ⟨f, hf, hrf, hpf, hnf⟩ := h1
    obtain ⟨g, hg, hrg, hpg, hng⟩ := h2
    simp only [inRange, Bool.and_eq_true, decide_eq_true_eq] at hrf hrg
    have := hst f hf g hg (by omega)
    omega
  rw [hunion, Finset.card_union_of_disjoint hdisj]

/-- Additivity of the aggregate over adjacent intervals.  Trade counts
need the sequence-number uniqueness of the data model so that the two
distinct-sequence sets are disjoint. -/
theorem aggVal_split (env : Env) (qt : QueryType) (l : List Fill) (a b c : Int)
    (hst : SeqTime l) (hab : a ≤ b) (hbc : b ≤ c) :
    addC (aggVal env qt l a b) (aggVal env qt l b c) = aggVal env qt l a c := by
  cases qt <;>
    simp [aggVal, addC, distinctSeqs_split l _ a b c hst hab hbc,
      volSum_split env.conv l a b c hab hbc]

/-! ### Cache well-formedness -/

/-- A cache entry is well-formed when its fills are exactly the backend
fills of its range, its endpoints are valid instants, and its range is
not inverted.  Every entry ever inserted originates from a successful
backend fetch of exactly that range, so this invariant holds of all
reachable caches. -/
def EntryWF (allFills : List Fill) (e : TimeRange × List Fill) : Prop :=
  e.2 = backendFills allFills e.1.startTs e.1.endTs ∧
    validTs e.1.startTs ∧ validTs e.1.endTs ∧ e.1.startTs ≤ e.1.endTs

/-- All entries of a bucket (or of a pending `to_update` list) are
well-formed. -/
def BucketWF (allFills : List Fill) (b : Bucket) : Prop :=
  ∀ e ∈ b, EntryWF allFills e

/-- All buckets of the cache are well-formed. -/
def CacheWF (allFills : List Fill) (c : Cache) : Prop :=
  ∀ kb ∈ c.entries, BucketWF allFills kb.2

theorem CacheWF.empty (allFills : List Fill) : CacheWF allFills emptyCache := by
  intro kb h
  cases h

instance EntryWF.dec (allFills : List Fill) (e : TimeRange × List Fill) :
    Decidable (EntryWF allFills e) := by
  unfold EntryWF; infer_instance

instance BucketWF.dec (allFills : List Fill) (b : Bucket) :
    Decidable (BucketWF allFills b) := by
  unfold BucketWF; infer_instance

instance CacheWF.dec (allFills : List Fill) (c : Cache) :
    Decidable (CacheWF allFills c) := by
  unfold CacheWF; infer_instance

theorem get_fills_api_error (allFills : List Fill) (a b : Int) (e : QErr)
    (h : get_fills_api allFills a b = .error e) : e = .backend := by
  unfold get_fills_api at h
  split at h
  · split at h
    · cases h
    · cases h; rfl
  · cases h; rfl

theorem get_fills_api_ok (allFills : List Fill) (a b : Int) (fs : List Fill)
    (h : get_fills_api allFills a b = .ok fs) :
    fs = backendFills allFills a b ∧ validTs a ∧ validTs b := by
  unfold get_fills_api at h
  split at h
  · split at h
    · cases h; exact ⟨rfl, by assumption, by assumption⟩
    · cases h
  · cases h

theorem get_fills_api_valid (allFills : List Fill) (a b : Int)
    (ha : validTs a) (hb : validTs b) :
    get_fills_api allFills a b = .ok (backendFills allFills a b) := by
  simp [get_fills_api, ha, hb]

theorem Cache.lookup_wf {allFills : List Fill} {c : Cache} {k : Int} {b : Bucket}
    (hwf : CacheWF allFills c) (h : c.lookup k = some b) : BucketWF allFills b := by
  unfold Cache.lookup at h
  split at h
  · rename_i kb hfind
    cases h
    exact hwf kb (List.mem_of_find?_eq_some hfind)
  · cases h

theorem Cache.promote_wf {allFills : List Fill} {c : Cache} {k : Int} {b : Bucket}
    (hwf : CacheWF allFills c) (hb : BucketWF allFills b) :
    CacheWF allFills (c.promote k b) := by
  intro kb hkb
  rcases List.mem_cons.mp hkb with h | h
  · subst h; exact hb
  · exact hwf kb (List.mem_of_mem_filter h)

theorem Cache.get_wf {allFills : List Fill} {c : Cache} {k : Int}
    (hwf : CacheWF allFills c) :
    (∀ b, (c.get k).1 = some b → BucketWF allFills b) ∧
      CacheWF allFills (c.get k).2 := by
  unfold Cache.get
  cases hl : c.lookup k with
  | none =>
    refine ⟨fun b h => ?_, hwf⟩
    cases h
  | some b =>
    refine ⟨fun b2 h => ?_, Cache.promote_wf hwf (Cache.lookup_wf hwf hl)⟩
    cases h
    exact Cache.lookup_wf hwf hl

theorem Cache.put_wf {allFills : List Fill} {c : Cache} {k : Int} {b : Bucket}
    (hwf : CacheWF allFills c) (hb : BucketWF allFills b) :
    CacheWF allFills (c.put k b) := by
  intro kb hkb
  unfold Cache.put at hkb
  simp only at hkb
  have hmem : kb ∈ (k, b) :: c.entries.filter (fun kb => decide (kb.1 ≠ k)) := by
    split at hkb
    · exact List.dropLast_subset _ hkb
    · exact hkb
  rcases List.mem_cons.mp hmem with h | h
  · subst h; exact hb
  · exact hwf kb (List.mem_of_mem_filter h)

theorem bucketInsert_wf {allFills : List Fill} {b : Bucket} {r : TimeRange}
    {fs : List Fill} (hb : BucketWF allFills b)
    (he : EntryWF allFills (r, fs)) : BucketWF allFills (bucketInsert b r fs) := by
  intro e hmem
  unfold bucketInsert at hmem
  split at hmem
  · obtain ⟨e0, he0, heq⟩ := List.mem_map.mp hmem
    by_cases h : e0.1 = r
    · simp only [h, if_true] at heq
      subst heq; exact he
    · simp only [h, if_false] at heq
      subst heq; exact hb e0 he0
  · rcases List.mem_append.mp hmem with h | h
    · exact hb e h
    · rcases List.mem_singleton.mp h with h
      subst h; exact he

theorem Cache.insertFills_wf {allFills : List Fill} {c : Cache} {k : Int}
    {r : TimeRange} {fs : List Fill} (hwf : CacheWF allFills c)
    (he : EntryWF allFills (r, fs)) :
    CacheWF allFills (c.insertFills k r fs) := by
  unfold Cache.insertFills
  cases hl : c.lookup k with
  | some b =>
    exact Cache.promote_wf hwf (bucketInsert_wf (Cache.lookup_wf hwf hl) he)
  | none =>
    refine Cache.put_wf hwf (bucketInsert_wf ?_ he)
    intro e h
    cases h

theorem Cache.updateBucket_wf {allFills : List Fill} {c : Cache} {k : Int}
    {tu : List (TimeRange × List Fill)} (hwf : CacheWF allFills c)
    (htu : BucketWF allFills tu) :
    CacheWF allFills (c.updateBucket k tu) := by
  unfold Cache.updateBucket
  cases hl : c.lookup k with
  | some b =>
    refine Cache.promote_wf hwf ?_
    have : ∀ (tu2 : List (TimeRange × List Fill)) (acc : Bucket),
        BucketWF allFills tu2 → BucketWF allFills acc →
        BucketWF allFills (tu2.foldl (fun acc rf => bucketInsert acc rf.1 rf.2) acc) := by
      intro tu2
      induction tu2 with
      | nil => intro acc _ hacc; exact hacc
      | cons rf rest ih =>
        intro acc htu2 hacc
        refine ih _ (fun e he => htu2 e (List.mem_cons_of_mem rf he)) ?_
        exact bucketInsert_wf hacc (htu2 rf (List.mem_cons_self rf rest))
    exact this tu b htu (Cache.lookup_wf hwf hl)
  | none => exact hwf

/-! ### Helper lemmas for the scan proof -/

theorem validTs_between {a b t : Int} (ha : validTs a) (hb : validTs b)
    (h1 : a ≤ t) (h2 : t ≤ b) : validTs t := by
  unfold validTs at ha hb ⊢
  omega

theorem get_fills_api_invalid_left (allFills : List Fill) (a b : Int)
    (h : ¬ validTs a) : get_fills_api allFills a b = .error .backend := by
  simp [get_fills_api, h]

theorem get_fills_api_invalid_right (allFills : List Fill) (a b : Int)
    (h : ¬ validTs b) : get_fills_api allFills a b = .error .backend := by
  unfold get_fills_api
  split <;> simp [h]

/-- Counting a sub-interval of a well-formed cached slice equals the
aggregate over the full dataset. -/
theorem count_cached (env : Env) (qt : QueryType) {fills : List Fill} {cs ce x y : Int}
    (hfills : fills = backendFills env.allFills cs ce) (h1 : cs ≤ x) (h2 : y ≤ ce)
    (hvx : validTs x) (hvy : validTs y) :
    count_from_range env qt fills ⟨x, y⟩ = some (aggVal env qt env.allFills x y) := by
  subst hfills
  rw [count_from_range_eq env qt _ _ hvx hvy]
  rw [show (⟨x, y⟩ : TimeRange).startTs = x from rfl, show (⟨x, y⟩ : TimeRange).endTs = y from rfl]
  rw [aggVal_restrict env qt _ x y cs ce h1 h2]

theorem mergeO_addC (x : Option Count) (u v : Count)
    (hx : ∀ a, x = some a → a.tag = u.tag) (huv : u.tag = v.tag) :
    addC (mergeO x u) v = mergeO x (addC u v) := by
  cases x with
  | none => rfl
  | some a => exact addC_assoc a u v (hx a rfl) huv

theorem CountInv.merge {qt : QueryType} {x : Option Count} {c : Count}
    (hx : CountInv qt x) (hc : c.tag = qtTag qt) :
    CountInv qt (some (mergeO x c)) := by
  intro a h
  injection h with h
  subst h
  rw [mergeO_tag x c (fun a ha => (hx a ha).trans hc.symm)]
  exact hc

theorem mergeCount_inv {qt : QueryType} {x : Option Count} {c : Count}
    (hx : CountInv qt x) (hc : c.tag = qtTag qt) :
    mergeCount x c = some (mergeO x c) :=
  mergeCount_eq x c (fun a ha => (hx a ha).trans hc.symm)

theorem Exec.emit_cache (ex : Exec) (e : Event) : (ex.emit e).cache = ex.cache := rfl

/-- Master lemma for the bucket scan of `Query::get_count`: the scan
never mutates the cache, fails only with backend errors (never a
panic), keeps the loop state well-formed, and accounts exactly for the
aggregate of the part of the query interval it has consumed. -/
theorem scan_spec (env : Env) (qt : QueryType) :
    ∀ (entries : List (TimeRange × List Fill)) (st : ScanSt) (ex : Exec),
      BucketWF env.allFills entries →
      st.qs ≤ st.qe →
      CountInv qt st.count →
      BucketWF env.allFills st.toUpdate →
      (∀ e ex2, scan env qt entries st ex = (.error e, ex2) →
          e = .backend ∧ ex2.cache = ex.cache) ∧
      (∀ st2 dn ex2, scan env qt entries st ex = (.ok (st2, dn), ex2) →
          ex2.cache = ex.cache ∧
          st2.qs ≤ st2.qe ∧
          CountInv qt st2.count ∧
          BucketWF env.allFills st2.toUpdate ∧
          (validTs st.qs → validTs st.qe → validTs st2.qs ∧ validTs st2.qe) ∧
          (SeqTime env.allFills →
            (dn = true →
              st2.count =
                some (mergeO st.count (aggVal env qt env.allFills st.qs st.qe))) ∧
            (dn = false →
              mergeO st2.count (aggVal env qt env.allFills st2.qs st2.qe) =
                mergeO st.count (aggVal env qt env.allFills st.qs st.qe)))) ∧
      (validTs st.qs → validTs st.qe →
        ∃ st2 dn ex2, scan env qt entries st ex = (.ok (st2, dn), ex2)) := by
  intro entries
  induction entries with
  | nil =>
    intro st ex hb hq hci htu
    refine ⟨?_, ?_, ?_⟩
    · intro e ex2 h
      simp only [scan, Prod.mk.injEq] at h
      obtain ⟨h1, _⟩ := h
      cases h1
    · intro st2 dn ex2 h
      simp only [scan, Prod.mk.injEq, Except.ok.injEq] at h
      obtain ⟨⟨hst2, hdn⟩, hex2⟩ := h
      subst hst2 hdn hex2
      refine ⟨rfl, hq, hci, htu, fun hv1 hv2 => ⟨hv1, hv2⟩, fun _ => ⟨?_, fun _ => rfl⟩⟩
      intro hcontra
      cases hcontra
    · intro hv1 hv2
      exact ⟨st, false, ex, rfl⟩
  | cons entry rest ih =>
    obtain ⟨cr, fills⟩ := entry
    intro st ex hb hq hci htu
    have hentry := hb (cr, fills) (List.mem_cons_self _ _)
    obtain ⟨hfills, hvcs, hvce, hcsce⟩ := hentry
    simp only at hfills hvcs hvce hcsce
    have hbrest : BucketWF env.allFills rest :=
      fun e he => hb e (List.mem_cons_of_mem _ he)
    by_cases hov : st.qs ≤ cr.endTs ∧ cr.startTs ≤ st.qe
    · by_cases h1 : cr.startTs ≤ st.qs ∧ st.qe ≤ cr.endTs
      · -- Contained branch.
        have hvqs : validTs st.qs := validTs_between hvcs hvce h1.1 (le_trans hq h1.2)
        have hvqe : validTs st.qe := validTs_between hvcs hvce (le_trans h1.1 hq) h1.2
        have htag := aggVal_tag env qt env.allFills st.qs st.qe
        have hrun : scan env qt ((cr, fills) :: rest) st ex =
            (.ok ({ st with
                      count := some (mergeO st.count
                        (aggVal env qt env.allFills st.qs st.qe)) }, true), ex) := by
          simp only [scan, if_pos hov, if_pos h1,
            count_cached env qt hfills h1.1 h1.2 hvqs hvqe, mergeCount_inv hci htag]
        refine ⟨?_, ?_, ?_⟩
        · intro e ex2 h
          rw [hrun] at h
          simp only [Prod.mk.injEq] at h
          obtain ⟨h1', _⟩ := h
          cases h1'
        · intro st2 dn ex2 h
          rw [hrun] at h
          simp only [Prod.mk.injEq, Except.ok.injEq] at h
          obtain ⟨⟨hst2, hdn⟩, hex2⟩ := h
          subst hst2 hdn hex2
          refine ⟨rfl, hq, CountInv.merge hci htag, htu,
            fun hv1 hv2 => ⟨hv1, hv2⟩, fun _ => ⟨fun _ => rfl, ?_⟩⟩
          intro hcontra
          cases hcontra
        · intro hv1 hv2
          exact ⟨_, _, _, hrun⟩
      · by_cases h2 : st.qs ≤ cr.startTs ∧ cr.endTs ≤ st.qe
        · -- Containing branch: count the cached range whole, fetch the
          -- two gaps, record them, and break.
          have htagc := aggVal_tag env qt env.allFills cr.startTs cr.endTs
          have hcntc : mergeCount st.count (aggVal env qt env.allFills cr.startTs cr.endTs) =
              some (mergeO st.count (aggVal env qt env.allFills cr.startTs cr.endTs)) :=
            mergeCount_inv hci htagc
          by_cases hqv : validTs st.qs
          · by_cases hqe : validTs st.qe
            · -- Both fetches succeed.
              have hbefore := get_fills_api_valid env.allFills st.qs cr.startTs hqv hvcs
              have hafter := get_fills_api_valid env.allFills cr.endTs st.qe hvce hqe
              have hbc : count_from_range env qt (backendFills env.allFills st.qs cr.startTs)
                  ⟨st.qs, cr.startTs⟩ =
                  some (aggVal env qt env.allFills st.qs cr.startTs) :=
                count_cached env qt rfl le_rfl le_rfl hqv hvcs
              have hac : count_from_range env qt (backendFills env.allFills cr.endTs st.qe)
                  ⟨cr.endTs, st.qe⟩ =
                  some (aggVal env qt env.allFills cr.endTs st.qe) :=
                count_cached env qt rfl le_rfl le_rfl hvce hqe
              have hcnt_tag : (mergeO st.count
                  (aggVal env qt env.allFills cr.startTs cr.endTs)).tag = qtTag qt :=
                (mergeO_tag _ _ (fun a ha => (hci a ha).trans htagc.symm)).trans htagc
              have hadd1 : (mergeO st.count (aggVal env qt env.allFills cr.startTs cr.endTs)).add
                  (aggVal env qt env.allFills st.qs cr.startTs) =
                  some (addC (mergeO st.count (aggVal env qt env.allFills cr.startTs cr.endTs))
                    (aggVal env qt env.allFills st.qs cr.startTs)) :=
                Count.add_eq_addC _ _ (hcnt_tag.trans (aggVal_tag env qt _ _ _).symm)
              have hadd2 : (addC (mergeO st.count (aggVal env qt env.allFills cr.startTs cr.endTs))
                  (aggVal env qt env.allFills st.qs cr.startTs)).add
                  (aggVal env qt env.allFills cr.endTs st.qe) =
                  some (addC (addC (mergeO st.count
                    (aggVal env qt env.allFills cr.startTs cr.endTs))
                    (aggVal env qt env.allFills st.qs cr.startTs))
                    (aggVal env qt env.allFills cr.endTs st.qe)) := by
                refine Count.add_eq_addC _ _ ?_
                rw [addC_tag, hcnt_tag, aggVal_tag]
              have hrun : scan env qt ((cr, fills) :: rest) st ex =
                  (.ok ({ st with
                            count := some (addC (addC (mergeO st.count
                              (aggVal env qt env.allFills cr.startTs cr.endTs))
                              (aggVal env qt env.allFills st.qs cr.startTs))
                              (aggVal env qt env.allFills cr.endTs st.qe)),
                            toUpdate := st.toUpdate ++
                              [(⟨st.qs, cr.startTs⟩,
                                  backendFills env.allFills st.qs cr.startTs),
                               (⟨cr.endTs, st.qe⟩,
                                  backendFills env.allFills cr.endTs st.qe)] }, true),
                    (ex.emit (.fetchGap st.qs cr.startTs)).emit (.fetchGap cr.endTs st.qe)) := by
                simp only [scan, if_pos hov, if_neg h1, if_pos h2,
                  count_cached env qt hfills le_rfl le_rfl hvcs hvce, hcntc,
                  hbefore, hafter, hbc, hac, hadd1, hadd2]
              refine ⟨?_, ?_, ?_⟩
              · intro e ex2 h
                rw [hrun] at h
                simp only [Prod.mk.injEq] at h
                obtain ⟨h1', _⟩ := h
                cases h1'
              · intro st2 dn ex2 h
                rw [hrun] at h
                simp only [Prod.mk.injEq, Except.ok.injEq] at h
                obtain ⟨⟨hst2, hdn⟩, hex2⟩ := h
                subst hst2 hdn hex2
                refine ⟨by rw [Exec.emit_cache, Exec.emit_cache], hq, ?_, ?_,
                  fun hv1 hv2 => ⟨hv1, hv2⟩, fun hst => ⟨?_, ?_⟩⟩
                · intro a ha
                  injection ha with ha
                  subst ha
                  rw [addC_tag, addC_tag]
                  exact hcnt_tag
                · intro e he
                  rcases List.mem_append.mp he with he | he
                  · exact htu e he
                  · rcases List.mem_cons.mp he with he | he
                    · subst he
                      exact ⟨rfl, hqv, hvcs, h2.1⟩
                    · rcases List.mem_singleton.mp he with he
                      subst he
                      exact ⟨rfl, hvce, hqe, h2.2⟩
                · intro _
                  have e1 : addC (mergeO st.count
                      (aggVal env qt env.allFills cr.startTs cr.endTs))
                      (aggVal env qt env.allFills st.qs cr.startTs) =
                      mergeO st.count (aggVal env qt env.allFills st.qs cr.endTs) := by
                    rw [mergeO_addC _ _ _ (fun a ha => (hci a ha).trans htagc.symm)
                      (htagc.trans (aggVal_tag env qt _ _ _).symm)]
                    rw [addC_comm _ _ ((aggVal_tag env qt _ _ _).trans
                      (aggVal_tag env qt _ _ _).symm)]
                    rw [aggVal_split env qt env.allFills st.qs cr.startTs cr.endTs hst h2.1 hcsce]
                  show some _ = _
                  rw [e1, mergeO_addC _ _ _ (fun a ha => (hci a ha).trans
                      (aggVal_tag env qt _ _ _).symm)
                      ((aggVal_tag env qt _ _ _).trans (aggVal_tag env qt _ _ _).symm),
                    aggVal_split env qt env.allFills st.qs cr.endTs st.qe hst
                      (le_trans h2.1 hcsce) h2.2]
                · intro hcontra
                  cases hcontra
              · intro hv1 hv2
                exact ⟨_, _, _, hrun⟩
            · -- The second gap fetch fails: the error propagates.
              have hrun : scan env qt ((cr, fills) :: rest) st ex =
                  (.error .backend,
                    (ex.emit (.fetchGap st.qs cr.startTs)).emit (.fetchGap cr.endTs st.qe)) := by
                simp only [scan, if_pos hov, if_neg h1, if_pos h2,
                  count_cached env qt hfills le_rfl le_rfl hvcs hvce, hcntc,
                  get_fills_api_valid env.allFills st.qs cr.startTs hqv hvcs,
                  get_fills_api_invalid_right env.allFills cr.endTs st.qe hqe]
              refine ⟨?_, ?_, ?_⟩
              · intro e ex2 h
                rw [hrun] at h
                simp only [Prod.mk.injEq] at h
                obtain ⟨h1', h2'⟩ := h
                injection h1' with h1'
                exact ⟨h1'.symm, by rw [← h2', Exec.emit_cache, Exec.emit_cache]⟩
              · intro st2 dn ex2 h
                rw [hrun] at h
                simp only [Prod.mk.injEq] at h
                obtain ⟨h1', _⟩ := h
                cases h1'
              · intro hv1 hv2
                exact absurd hv2 hqe
          · -- The first gap fetch fails: the error propagates.
            have hrun : scan env qt ((cr, fills) :: rest) st ex =
                (.error .backend, ex.emit (.fetchGap st.qs cr.startTs)) := by
              simp only [scan, if_pos hov, if_neg h1, if_pos h2,
                count_cached env qt hfills le_rfl le_rfl hvcs hvce, hcntc,
                get_fills_api_invalid_left env.allFills st.qs cr.startTs hqv]
            refine ⟨?_, ?_, ?_⟩
            · intro e ex2 h
              rw [hrun] at h
              simp only [Prod.mk.injEq] at h
              obtain ⟨h1', h2'⟩ := h
              injection h1' with h1'
              exact ⟨h1'.symm, by rw [← h2', Exec.emit_cache]⟩
            · intro st2 dn ex2 h
              rw [hrun] at h
              simp only [Prod.mk.injEq] at h
              obtain ⟨h1', _⟩ := h
              cases h1'
            · intro hv1 hv2
              exact absurd hv1 hqv
        · by_cases h3 : st.qs ≤ cr.startTs ∧ st.qe ≤ cr.endTs
          · -- Overlap before: count `(cr.startTs, st.qe]`, shrink the end.
            have hvqe : validTs st.qe := validTs_between hvcs hvce hov.2 h3.2
            have htag := aggVal_tag env qt env.allFills cr.startTs st.qe
            have hrun : scan env qt ((cr, fills) :: rest) st ex =
                scan env qt rest { st with
                  qe := cr.startTs,
                  count := some (mergeO st.count
                    (aggVal env qt env.allFills cr.startTs st.qe)) } ex := by
              simp only [scan, if_pos hov, if_neg h1, if_neg h2, if_pos h3,
                count_cached env qt hfills le_rfl h3.2 hvcs hvqe, mergeCount_inv hci htag]
            have hIH := ih { st with
                qe := cr.startTs,
                count := some (mergeO st.count
                  (aggVal env qt env.allFills cr.startTs st.qe)) }
              ex hbrest h3.1 (CountInv.merge hci htag) htu
            refine ⟨?_, ?_, ?_⟩
            · intro e ex2 h
              rw [hrun] at h
              exact hIH.1 e ex2 h
            · intro st2 dn ex2 h
              rw [hrun] at h
              obtain ⟨hcache, hq2, hci2, htu2, hvp, heq⟩ := hIH.2.1 st2 dn ex2 h
              have echain : ∀ _ : SeqTime env.allFills,
                  addC (mergeO st.count (aggVal env qt env.allFills cr.startTs st.qe))
                    (aggVal env qt env.allFills st.qs cr.startTs) =
                    mergeO st.count (aggVal env qt env.allFills st.qs st.qe) := by
                intro hst
                rw [mergeO_addC _ _ _ (fun a ha => (hci a ha).trans htag.symm)
                  (htag.trans (aggVal_tag env qt _ _ _).symm)]
                rw [addC_comm _ _ ((aggVal_tag env qt _ _ _).trans
                  (aggVal_tag env qt _ _ _).symm)]
                rw [aggVal_split env qt env.allFills st.qs cr.startTs st.qe hst h3.1 hov.2]
              refine ⟨hcache, hq2, hci2, htu2, ?_, ?_⟩
              · intro hv1 _
                exact hvp hv1 hvcs
              · intro hst
                obtain ⟨hdt, hdf⟩ := heq hst
                constructor
                · intro hdn
                  rw [hdt hdn]
                  exact congrArg some (echain hst)
                · intro hdn
                  rw [hdf hdn]
                  exact echain hst
            · intro hv1 _
              obtain ⟨st2, dn, ex2, hok⟩ := hIH.2.2 hv1 hvcs
              exact ⟨st2, dn, ex2, by rw [hrun]; exact hok⟩
          · by_cases h4 : cr.startTs ≤ st.qs ∧ cr.endTs ≤ st.qe
            · -- Overlap after: count `(st.qs, cr.endTs]`, shrink the start.
              have hvqs : validTs st.qs := validTs_between hvcs hvce h4.1 hov.1
              have htag := aggVal_tag env qt env.allFills st.qs cr.endTs
              have hrun : scan env qt ((cr, fills) :: rest) st ex =
                  scan env qt rest { st with
                    qs := cr.endTs,
                    count := some (mergeO st.count
                      (aggVal env qt env.allFills st.qs cr.endTs)) } ex := by
                simp only [scan, if_pos hov, if_neg h1, if_neg h2, if_neg h3, if_pos h4,
                  count_cached env qt hfills h4.1 le_rfl hvqs hvce, mergeCount_inv hci htag]
              have hIH := ih { st with
                  qs := cr.endTs,
                  count := some (mergeO st.count
                    (aggVal env qt env.allFills st.qs cr.endTs)) }
                ex hbrest h4.2 (CountInv.merge hci htag) htu
              refine ⟨?_, ?_, ?_⟩
              · intro e ex2 h
                rw [hrun] at h
                exact hIH.1 e ex2 h
              · intro st2 dn ex2 h
                rw [hrun] at h
                obtain ⟨hcache, hq2, hci2, htu2, hvp, heq⟩ := hIH.2.1 st2 dn ex2 h
                have echain : ∀ _ : SeqTime env.allFills,
                    addC (mergeO st.count (aggVal env qt env.allFills st.qs cr.endTs))
                      (aggVal env qt env.allFills cr.endTs st.qe) =
                      mergeO st.count (aggVal env qt env.allFills st.qs st.qe) := by
                  intro hst
                  rw [mergeO_addC _ _ _ (fun a ha => (hci a ha).trans htag.symm)
                    (htag.trans (aggVal_tag env qt _ _ _).symm)]
                  rw [aggVal_split env qt env.allFills st.qs cr.endTs st.qe hst hov.1 h4.2]
                refine ⟨hcache, hq2, hci2, htu2, ?_, ?_⟩
                · intro _ hv2
                  exact hvp hvce hv2
                · intro hst
                  obtain ⟨hdt, hdf⟩ := heq hst
                  constructor
                  · intro hdn
                    rw [hdt hdn]
                    exact congrArg some (echain hst)
                  · intro hdn
                    rw [hdf hdn]
                    exact echain hst
              · intro _ hv2
                obtain ⟨st2, dn, ex2, hok⟩ := hIH.2.2 hvce hv2
                exact ⟨st2, dn, ex2, by rw [hrun]; exact hok⟩
            · -- Unreachable fifth branch (the four cases are exhaustive
              -- for overlapping ranges); falls through to the next entry.
              have hrun : scan env qt ((cr, fills) :: rest) st ex =
                  scan env qt rest st ex := by
                simp only [scan, if_pos hov, if_neg h1, if_neg h2, if_neg h3, if_neg h4]
              have hIH := ih st ex hbrest hq hci htu
              refine ⟨?_, ?_, ?_⟩
              · intro e ex2 h
                rw [hrun] at h
                exact hIH.1 e ex2 h
              · intro st2 dn ex2 h
                rw [hrun] at h
                exact hIH.2.1 st2 dn ex2 h
              · intro hv1 hv2
                obtain ⟨st2, dn, ex2, hok⟩ := hIH.2.2 hv1 hv2
                exact ⟨st2, dn, ex2, by rw [hrun]; exact hok⟩
    · -- Disjoint: skip this cached range.
      have hrun : scan env qt ((cr, fills) :: rest) st ex =
          scan env qt rest st ex := by
        simp only [scan, if_neg hov]
      have hIH := ih st ex hbrest hq hci htu
      refine ⟨?_, ?_, ?_⟩
      · intro e ex2 h
        rw [hrun] at h
        exact hIH.1 e ex2 h
      · intro st2 dn ex2 h
        rw [hrun] at h
        exact hIH.2.1 st2 dn ex2 h
      · intro hv1 hv2
        obtain ⟨st2, dn, ex2, hok⟩ := hIH.2.2 hv1 hv2
        exact ⟨st2, dn, ex2, by rw [hrun]; exact hok⟩

theorem updateStep_cache (env : Env) {slot : Int} {st : ScanSt} {ex : Exec}
    (hwf : CacheWF env.allFills ex.cache) (htu : BucketWF env.allFills st.toUpdate) :
    CacheWF env.allFills (updateStep slot st ex).cache := by
  unfold updateStep
  split
  · exact hwf
  · exact Cache.updateBucket_wf hwf htu

/-- Specification of the `!done` branch: it fails only when the
remaining range has an invalid endpoint (a backend error), and on
success merges exactly the aggregate of the remaining range and inserts
a well-formed entry for it. -/
theorem missStep_spec (env : Env) (qt : QueryType) (slot : Int) (st : ScanSt) (ex : Exec)
    (hwf : CacheWF env.allFills ex.cache) (hq : st.qs ≤ st.qe)
    (hci : CountInv qt st.count) :
    (∀ e ex2, missStep env qt slot st ex = (.error e, ex2) →
        e = .backend ∧ CacheWF env.allFills ex2.cache) ∧
    (∀ cnt ex2, missStep env qt slot st ex = (.ok cnt, ex2) →
        CacheWF env.allFills ex2.cache ∧ CountInv qt cnt ∧
        cnt = some (mergeO st.count (aggVal env qt env.allFills st.qs st.qe))) ∧
    (validTs st.qs → validTs st.qe →
        ∃ cnt ex2, missStep env qt slot st ex = (.ok cnt, ex2)) := by
  by_cases hv1 : validTs st.qs
  · by_cases hv2 : validTs st.qe
    · have htag := aggVal_tag env qt env.allFills st.qs st.qe
      have hrun : missStep env qt slot st ex =
          (.ok (some (mergeO st.count (aggVal env qt env.allFills st.qs st.qe))),
            ({ (ex.emit (.fetchMiss st.qs st.qe)).emit .lockAcquire with
                cache := ex.cache.insertFills slot ⟨st.qs, st.qe⟩
                  (backendFills env.allFills st.qs st.qe) }).emit .lockRelease) := by
        simp only [missStep, get_fills_api_valid env.allFills st.qs st.qe hv1 hv2,
          count_cached env qt rfl le_rfl le_rfl hv1 hv2, mergeCount_inv hci htag,
          Exec.emit_cache]
      refine ⟨?_, ?_, ?_⟩
      · intro e ex2 h
        rw [hrun] at h
        simp only [Prod.mk.injEq] at h
        obtain ⟨h1', _⟩ := h
        cases h1'
      · intro cnt ex2 h
        rw [hrun] at h
        simp only [Prod.mk.injEq, Except.ok.injEq] at h
        obtain ⟨h1', h2'⟩ := h
        subst h1' h2'
        refine ⟨?_, ?_, rfl⟩
        · show CacheWF env.allFills (Cache.insertFills _ slot ⟨st.qs, st.qe⟩ _)
          exact Cache.insertFills_wf hwf ⟨rfl, hv1, hv2, hq⟩
        · intro a ha
          injection ha with ha
          subst ha
          exact mergeO_tag _ _ (fun a ha => (hci a ha).trans htag.symm) |>.trans htag
      · intro _ _
        exact ⟨_, _, hrun⟩
    · have hrun : missStep env qt slot st ex =
          (.error .backend, ex.emit (.fetchMiss st.qs st.qe)) := by
        simp only [missStep, get_fills_api_invalid_right env.allFills st.qs st.qe hv2]
      refine ⟨?_, ?_, ?_⟩
      · intro e ex2 h
        rw [hrun] at h
        simp only [Prod.mk.injEq] at h
        obtain ⟨h1', h2'⟩ := h
        injection h1' with h1'
        subst h2'
        exact ⟨h1'.symm, hwf⟩
      · intro cnt ex2 h
        rw [hrun] at h
        simp only [Prod.mk.injEq] at h
        obtain ⟨h1', _⟩ := h
        cases h1'
      · intro _ hv
        exact absurd hv hv2
  · have hrun : missStep env qt slot st ex =
        (.error .backend, ex.emit (.fetchMiss st.qs st.qe)) := by
      simp only [missStep, get_fills_api_invalid_left env.allFills st.qs st.qe hv1]
    refine ⟨?_, ?_, ?_⟩
    · intro e ex2 h
      rw [hrun] at h
      simp only [Prod.mk.injEq] at h
      obtain ⟨h1', h2'⟩ := h
      injection h1' with h1'
      subst h2'
      exact ⟨h1'.symm, hwf⟩
    · intro cnt ex2 h
      rw [hrun] at h
      simp only [Prod.mk.injEq] at h
      obtain ⟨h1', _⟩ := h
      cases h1'
    · intro hv _
      exact absurd hv hv1

theorem processSlot_eq (env : Env) (qt : QueryType) (slot a b : Int)
    (count0 : Option Count) (ex : Exec) :
    processSlot env qt slot a b count0 ex =
      match (match (ex.cache.get slot).1 with
             | some bucket => scan env qt bucket ⟨a, b, count0, []⟩
                 { ex.emit .lockAcquire with cache := (ex.cache.get slot).2 }
             | none => (.ok ((⟨a, b, count0, []⟩ : ScanSt), false),
                 { ex.emit .lockAcquire with cache := (ex.cache.get slot).2 })) with
      | (.error e, ex3) => (.error e, ex3)
      | (.ok (st, done), ex3) =>
        if done then (.ok st.count, updateStep slot st (ex3.emit .lockRelease))
        else
          match missStep env qt slot st (ex3.emit .lockRelease) with
          | (.error e, ex5) => (.error e, ex5)
          | (.ok cnt, ex5) => (.ok cnt, updateStep slot st ex5) := rfl

/-- Specification of one slot-piece iteration of `Query::get_count`:
the cache invariant is preserved (also on failure), failures are always
backend errors, a successful iteration merges exactly the aggregate of
the piece, and valid endpoints guarantee success. -/
theorem processSlot_spec (env : Env) (qt : QueryType) (slot a b : Int)
    (count0 : Option Count) (ex : Exec) (hwf : CacheWF env.allFills ex.cache)
    (hab : a ≤ b) (hinv : CountInv qt count0) :
    (∀ e ex2, processSlot env qt slot a b count0 ex = (.error e, ex2) →
        e = .backend ∧ CacheWF env.allFills ex2.cache) ∧
    (∀ cnt ex2, processSlot env qt slot a b count0 ex = (.ok cnt, ex2) →
        CacheWF env.allFills ex2.cache ∧ CountInv qt cnt ∧
        (SeqTime env.allFills →
          cnt = some (mergeO count0 (aggVal env qt env.allFills a b)))) ∧
    (validTs a → validTs b →
        ∃ cnt ex2, processSlot env qt slot a b count0 ex = (.ok cnt, ex2)) := by
  have hgwf := Cache.get_wf (c := ex.cache) (k := slot) hwf
  cases hob : (ex.cache.get slot).1 with
  | none =>
    -- Bucket absent: the scan is skipped and the whole piece is a miss.
    have hwf2 : CacheWF env.allFills
        ({ ex.emit .lockAcquire with cache := (ex.cache.get slot).2 }.emit
          .lockRelease).cache := hgwf.2
    have hms := missStep_spec env qt slot ⟨a, b, count0, []⟩
      ({ ex.emit .lockAcquire with cache := (ex.cache.get slot).2 }.emit .lockRelease)
      hwf2 hab hinv
    rcases hm : missStep env qt slot ⟨a, b, count0, []⟩
        ({ ex.emit .lockAcquire with cache := (ex.cache.get slot).2 }.emit .lockRelease)
      with ⟨mres, ex5⟩
    cases mres with
    | error e =>
      have hrun : processSlot env qt slot a b count0 ex = (.error e, ex5) := by
        rw [processSlot_eq, hob]
        simp only [Bool.false_eq_true, if_false, hm]
      obtain ⟨he, hwf5⟩ := hms.1 e ex5 hm
      refine ⟨?_, ?_, ?_⟩
      · intro e2 ex6 h
        rw [hrun] at h
        simp only [Prod.mk.injEq] at h
        obtain ⟨h1', h2'⟩ := h
        injection h1' with h1'
        subst h1' h2'
        exact ⟨he, hwf5⟩
      · intro cnt ex6 h
        rw [hrun] at h
        simp only [Prod.mk.injEq] at h
        obtain ⟨h1', _⟩ := h
        cases h1'
      · intro hva hvb
        obtain ⟨cnt, ex6, hok⟩ := hms.2.2 hva hvb
        rw [hm] at hok
        simp only [Prod.mk.injEq] at hok
        obtain ⟨h1', _⟩ := hok
        cases h1'
    | ok cnt =>
      have hrun : processSlot env qt slot a b count0 ex =
          (.ok cnt, updateStep slot ⟨a, b, count0, []⟩ ex5) := by
        rw [processSlot_eq, hob]
        simp only [Bool.false_eq_true, if_false, hm]
      obtain ⟨hwf5, hcnt, heq⟩ := hms.2.1 cnt ex5 hm
      refine ⟨?_, ?_, ?_⟩
      · intro e2 ex6 h
        rw [hrun] at h
        simp only [Prod.mk.injEq] at h
        obtain ⟨h1', _⟩ := h
        cases h1'
      · intro cnt2 ex6 h
        rw [hrun] at h
        simp only [Prod.mk.injEq, Except.ok.injEq] at h
        obtain ⟨h1', h2'⟩ := h
        subst h1' h2'
        refine ⟨?_, hcnt, fun _ => heq⟩
        exact updateStep_cache env hwf5 (fun e he => absurd he (List.not_mem_nil e))
      · intro hva hvb
        exact ⟨cnt, updateStep slot ⟨a, b, count0, []⟩ ex5, hrun⟩
  | some bucket =>
    have hbwf : BucketWF env.allFills bucket := hgwf.1 bucket hob
    have hwf2 : CacheWF env.allFills
        ({ ex.emit .lockAcquire with cache := (ex.cache.get slot).2 }).cache := hgwf.2
    have hss := scan_spec env qt bucket ⟨a, b, count0, []⟩
      { ex.emit .lockAcquire with cache := (ex.cache.get slot).2 }
      hbwf hab hinv (fun e he => absurd he (List.not_mem_nil e))
    rcases hsc : scan env qt bucket ⟨a, b, count0, []⟩
        { ex.emit .lockAcquire with cache := (ex.cache.get slot).2 }
      with ⟨sres, ex3⟩
    cases sres with
    | error e =>
      obtain ⟨he, hc3⟩ := hss.1 e ex3 hsc
      have hrun : processSlot env qt slot a b count0 ex = (.error e, ex3) := by
        rw [processSlot_eq, hob]
        simp only [hsc]
      refine ⟨?_, ?_, ?_⟩
      · intro e2 ex6 h
        rw [hrun] at h
        simp only [Prod.mk.injEq] at h
        obtain ⟨h1', h2'⟩ := h
        injection h1' with h1'
        subst h1' h2'
        refine ⟨he, ?_⟩
        rw [hc3]
        exact hgwf.2
      · intro cnt ex6 h
        rw [hrun] at h
        simp only [Prod.mk.injEq] at h
        obtain ⟨h1', _⟩ := h
        cases h1'
      · intro hva hvb
        obtain ⟨st2, dn, ex6, hok⟩ := hss.2.2 hva hvb
        rw [hsc] at hok
        simp only [Prod.mk.injEq] at hok
        obtain ⟨h1', _⟩ := hok
        cases h1'
    | ok stdn =>
      obtain ⟨st, done⟩ := stdn
      obtain ⟨hc3, hq2, hci2, htu2, hvp, heqs⟩ := hss.2.1 st done ex3 hsc
      cases done with
      | true =>
        have hrun : processSlot env qt slot a b count0 ex =
            (.ok st.count, updateStep slot st (ex3.emit .lockRelease)) := by
          rw [processSlot_eq, hob]
          simp only [hsc, if_true]
        refine ⟨?_, ?_, ?_⟩
        · intro e2 ex6 h
          rw [hrun] at h
          simp only [Prod.mk.injEq] at h
          obtain ⟨h1', _⟩ := h
          cases h1'
        · intro cnt2 ex6 h
          rw [hrun] at h
          simp only [Prod.mk.injEq, Except.ok.injEq] at h
          obtain ⟨h1', h2'⟩ := h
          subst h1' h2'
          refine ⟨?_, hci2, ?_⟩
          · refine updateStep_cache env ?_ htu2
            show CacheWF env.allFills ex3.cache
            rw [hc3]
            exact hgwf.2
          · intro hst
            exact (heqs hst).1 rfl
        · intro hva hvb
          exact ⟨st.count, _, hrun⟩
      | false =>
        have hwf4 : CacheWF env.allFills (ex3.emit .lockRelease).cache := by
          rw [Exec.emit_cache, hc3]
          exact hgwf.2
        have hms := missStep_spec env qt slot st (ex3.emit .lockRelease) hwf4 hq2 hci2
        rcases hm : missStep env qt slot st (ex3.emit .lockRelease) with ⟨mres, ex5⟩
        cases mres with
        | error e =>
          have hrun : processSlot env qt slot a b count0 ex = (.error e, ex5) := by
            rw [processSlot_eq, hob]
            simp only [hsc, Bool.false_eq_true, if_false, hm]
          obtain ⟨he, hwf5⟩ := hms.1 e ex5 hm
          refine ⟨?_, ?_, ?_⟩
          · intro e2 ex6 h
            rw [hrun] at h
            simp only [Prod.mk.injEq] at h
            obtain ⟨h1', h2'⟩ := h
            injection h1' with h1'
            subst h1' h2'
            exact ⟨he, hwf5⟩
          · intro cnt ex6 h
            rw [hrun] at h
            simp only [Prod.mk.injEq] at h
            obtain ⟨h1', _⟩ := h
            cases h1'
          · intro hva hvb
            obtain ⟨hvs, hve⟩ := hvp hva hvb
            obtain ⟨cnt, ex6, hok⟩ := hms.2.2 hvs hve
            rw [hm] at hok
            simp only [Prod.mk.injEq] at hok
            obtain ⟨h1', _⟩ := hok
            cases h1'
        | ok cnt =>
          have hrun : processSlot env qt slot a b count0 ex =
              (.ok cnt, updateStep slot st ex5) := by
            rw [processSlot_eq, hob]
            simp only [hsc, Bool.false_eq_true, if_false, hm]
          obtain ⟨hwf5, hcnt, heq⟩ := hms.2.1 cnt ex5 hm
          refine ⟨?_, ?_, ?_⟩
          · intro e2 ex6 h
            rw [hrun] at h
            simp only [Prod.mk.injEq] at h
            obtain ⟨h1', _⟩ := h
            cases h1'
          · intro cnt2 ex6 h
            rw [hrun] at h
            simp only [Prod.mk.injEq, Except.ok.injEq] at h
            obtain ⟨h1', h2'⟩ := h
            subst h1' h2'
            refine ⟨updateStep_cache env hwf5 htu2, hcnt, ?_⟩
            intro hst
            rw [heq]
            exact congrArg some ((heqs hst).2 rfl)
          · intro hva hvb
            exact ⟨cnt, updateStep slot st ex5, hrun⟩

/-- Master lemma for the slot-piece fold of `Query::get_count`, by
induction on the loop fuel: the cache invariant is preserved, failures
are backend errors, a successful run returns exactly the direct
aggregate of `(cur, stop]` merged into the running count, and valid
endpoints guarantee success. -/
theorem get_countGo_spec (env : Env) (qt : QueryType) (stop : Int) :
    ∀ (fuel : Nat) (cur : Int) (count0 : Option Count) (ex : Exec),
      (stop - cur).toNat ≤ fuel →
      CacheWF env.allFills ex.cache →
      CountInv qt count0 →
      (∀ e ex2,
          get_countGo env qt (timeSlotsF fuel stop cur) count0 ex = (.error e, ex2) →
          e = .backend ∧ CacheWF env.allFills ex2.cache) ∧
      (∀ cnt ex2,
          get_countGo env qt (timeSlotsF fuel stop cur) count0 ex = (.ok cnt, ex2) →
          CacheWF env.allFills ex2.cache ∧ CountInv qt cnt ∧
          (SeqTime env.allFills →
            (cur < stop →
              cnt = some (mergeO count0 (aggVal env qt env.allFills cur stop))) ∧
            (¬ cur < stop → cnt = count0))) ∧
      (validTs cur → validTs stop →
          ∃ cnt ex2,
            get_countGo env qt (timeSlotsF fuel stop cur) count0 ex = (.ok cnt, ex2)) := by
  intro fuel
  induction fuel with
  | zero =>
    intro cur count0 ex hfuel hwf hinv
    have hcs : ¬ cur < stop := by omega
    refine ⟨?_, ?_, ?_⟩
    · intro e ex2 h
      simp only [timeSlotsF, get_countGo, Prod.mk.injEq] at h
      obtain ⟨h1', _⟩ := h
      cases h1'
    · intro cnt ex2 h
      simp only [timeSlotsF, get_countGo, Prod.mk.injEq, Except.ok.injEq] at h
      obtain ⟨h1', h2'⟩ := h
      subst h1' h2'
      exact ⟨hwf, hinv, fun _ => ⟨fun hc => absurd hc hcs, fun _ => rfl⟩⟩
    · intro _ _
      exact ⟨count0, ex, rfl⟩
  | succ fuel ih =>
    intro cur count0 ex hfuel hwf hinv
    by_cases hcs : cur < stop
    · have htsf : timeSlotsF (fuel + 1) stop cur =
          (slotOf cur, cur, nextTime stop cur) :: timeSlotsF fuel stop (nextTime stop cur) := by
        simp [timeSlotsF, hcs]
      have hnext_gt := nextTime_gt stop cur hcs
      have hnext_le := nextTime_le stop cur hcs
      have hps := processSlot_spec env qt (slotOf cur) cur (nextTime stop cur) count0 ex
        hwf (le_of_lt hnext_gt) hinv
      rcases hp : processSlot env qt (slotOf cur) cur (nextTime stop cur) count0 ex
        with ⟨pres, ex2⟩
      cases pres with
      | error e =>
        obtain ⟨he, hwf2⟩ := hps.1 e ex2 hp
        have hrun : get_countGo env qt (timeSlotsF (fuel + 1) stop cur) count0 ex =
            (.error e, ex2) := by
          rw [htsf]
          simp only [get_countGo, hp]
        refine ⟨?_, ?_, ?_⟩
        · intro e2 ex3 h
          rw [hrun] at h
          simp only [Prod.mk.injEq] at h
          obtain ⟨h1', h2'⟩ := h
          injection h1' with h1'
          subst h1' h2'
          exact ⟨he, hwf2⟩
        · intro cnt ex3 h
          rw [hrun] at h
          simp only [Prod.mk.injEq] at h
          obtain ⟨h1', _⟩ := h
          cases h1'
        · intro hva hvb
          have hvnext : validTs (nextTime stop cur) :=
            validTs_between hva hvb (le_of_lt hnext_gt) hnext_le
          obtain ⟨cnt, ex3, hok⟩ := hps.2.2 hva hvnext
          rw [hp] at hok
          simp only [Prod.mk.injEq] at hok
          obtain ⟨h1', _⟩ := hok
          cases h1'
      | ok cnt1 =>
        obtain ⟨hwf2, hcnt1, heq1⟩ := hps.2.1 cnt1 ex2 hp
        have hIH := ih (nextTime stop cur) cnt1 ex2 (by omega) hwf2 hcnt1
        have hrun : get_countGo env qt (timeSlotsF (fuel + 1) stop cur) count0 ex =
            get_countGo env qt (timeSlotsF fuel stop (nextTime stop cur)) cnt1 ex2 := by
          rw [htsf]
          simp only [get_countGo, hp]
        refine ⟨?_, ?_, ?_⟩
        · intro e ex3 h
          rw [hrun] at h
          exact hIH.1 e ex3 h
        · intro cnt ex3 h
          rw [hrun] at h
          obtain ⟨hwf3, hcnt3, heq3⟩ := hIH.2.1 cnt ex3 h
          refine ⟨hwf3, hcnt3, ?_⟩
          intro hst
          refine ⟨?_, fun hc => absurd hcs hc⟩
          intro _
          by_cases hns : nextTime stop cur < stop
          · rw [(heq3 hst).1 hns, heq1 hst]
            have htag1 := aggVal_tag env qt env.allFills cur (nextTime stop cur)
            have htag2 := aggVal_tag env qt env.allFills (nextTime stop cur) stop
            show some (addC (mergeO count0 (aggVal env qt env.allFills cur (nextTime stop cur)))
              (aggVal env qt env.allFills (nextTime stop cur) stop)) = _
            rw [mergeO_addC _ _ _ (fun a ha => (hinv a ha).trans htag1.symm)
              (htag1.trans htag2.symm)]
            rw [aggVal_split env qt env.allFills cur (nextTime stop cur) stop hst
              (le_of_lt hnext_gt) hnext_le]
          · have hn : nextTime stop cur = stop := le_antisymm hnext_le (by omega)
            rw [(heq3 hst).2 hns, heq1 hst, hn]
        · intro hva hvb
          have hvnext : validTs (nextTime stop cur) :=
            validTs_between hva hvb (le_of_lt hnext_gt) hnext_le
          obtain ⟨cnt, ex3, hok⟩ := hIH.2.2 hvnext hvb
          exact ⟨cnt, ex3, by rw [hrun]; exact hok⟩
    · have htsf : timeSlotsF (fuel + 1) stop cur = [] := by
        simp [timeSlotsF, hcs]
      refine ⟨?_, ?_, ?_⟩
      · intro e ex2 h
        rw [htsf] at h
        simp only [get_countGo, Prod.mk.injEq] at h
        obtain ⟨h1', _⟩ := h
        cases h1'
      · intro cnt ex2 h
        rw [htsf] at h
        simp only [get_countGo, Prod.mk.injEq, Except.ok.injEq] at h
        obtain ⟨h1', h2'⟩ := h
        subst h1' h2'
        exact ⟨hwf, hinv, fun _ => ⟨fun hc => absurd hc hcs, fun _ => rfl⟩⟩
      · intro _ _
        exact ⟨count0, ex, by rw [htsf]; rfl⟩

/-- Combined specification of `Query::get_count`. -/
theorem get_count_spec (env : Env) (qt : QueryType) (r : TimeRange) (cache : Cache)
    (hwf : CacheWF env.allFills cache) :
    (∀ e ex2, get_count env qt r cache = (.error e, ex2) →
        e = .backend ∧ CacheWF env.allFills ex2.cache) ∧
    (∀ cnt ex2, get_count env qt r cache = (.ok cnt, ex2) →
        CacheWF env.allFills ex2.cache ∧ CountInv qt cnt ∧
        (SeqTime env.allFills →
          (r.startTs < r.endTs →
            cnt = some (aggVal env qt env.allFills r.startTs r.endTs)) ∧
          (¬ r.startTs < r.endTs → cnt = none))) ∧
    (validTs r.startTs → validTs r.endTs →
        ∃ cnt ex2, get_count env qt r cache = (.ok cnt, ex2)) :=
  get_countGo_spec env qt r.endTs (r.endTs - r.startTs).toNat r.startTs none
    ⟨cache, []⟩ le_rfl hwf (CountInv.none qt)

/-- The backend dataset used by the example scenario of the
specification (one buy fill, sequence number 1, at time 100, price 10,
quantity 2), with the identity conversion standing in for `to_f64`. -/
def envW : Env := ⟨fun q => some q, [⟨100, 1, 10, 2, 1⟩]⟩

/-- Claim C1: for every query kind and every range with valid
timestamps, and regardless of the prior contents of the (well-formed)
cache, `Query::get_count` returns exactly the aggregate computed
directly from the full backend fill set restricted to that range (the
cache is observationally transparent); a range with no slot pieces
(`start ≥ end`) yields `none`.  Requires the data-model assumption that
sequence numbers identify fills (`SeqTime`), which makes the per-slice
distinct counts sum correctly across disjoint sub-ranges. -/
theorem c1_get_count_transparent (env : Env) (qt : QueryType) (r : TimeRange)
    (cache : Cache) (hst : SeqTime env.allFills) (hwf : CacheWF env.allFills cache)
    (hva : validTs r.startTs) (hvb : validTs r.endTs) :
    (get_count env qt r cache).1 =
      .ok (if r.startTs < r.endTs then count_from_range env qt env.allFills r else none) := by
  obtain ⟨cnt, ex2, hok⟩ := (get_count_spec env qt r cache hwf).2.2 hva hvb
  obtain ⟨_, _, heq⟩ := (get_count_spec env qt r cache hwf).2.1 cnt ex2 hok
  rw [hok]
  by_cases hlt : r.startTs < r.endTs
  · rw [if_pos hlt, (heq hst).1 hlt, count_from_range_eq env qt _ r hva hvb]
  · rw [if_neg hlt, (heq hst).2 hlt]

/-- Witness for C1 at the specification's example scenario. -/
theorem c1_get_count_transparent_witness :
    (get_count envW .TakerTrades ⟨50, 150⟩ emptyCache).1 =
      .ok (if (50 : Int) < 150 then
        count_from_range envW .TakerTrades envW.allFills ⟨50, 150⟩ else none) :=
  c1_get_count_transparent envW .TakerTrades ⟨50, 150⟩ emptyCache
    (by decide) (by decide) (by decide) (by decide)

/-- Claim C10: resolving any query (including one whose timestamps are
out of range for `DateTime::from_timestamp`) against a reachable,
well-formed cache never reaches the `unwrap` panic inside
`filter_fills`/`trading_volume`: every aggregation range is bounded by
validated cached endpoints or by a just-validated fetch range.  The
resulting cache is again well-formed, so the invariant is preserved
along every resolution, starting from the empty cache. -/
theorem c10_no_timestamp_panic (env : Env) (qt : QueryType) (r : TimeRange)
    (cache : Cache) (hwf : CacheWF env.allFills cache) :
    (get_count env qt r cache).1 ≠ .error .tsPanic ∧
      CacheWF env.allFills (get_count env qt r cache).2.cache := by
  rcases hg : get_count env qt r cache with ⟨res, ex2⟩
  cases res with
  | error e =>
    obtain ⟨he, hwf2⟩ := (get_count_spec env qt r cache hwf).1 e ex2 hg
    subst he
    refine ⟨fun h => ?_, hwf2⟩
    cases h
  | ok cnt =>
    obtain ⟨hwf2, _, _⟩ := (get_count_spec env qt r cache hwf).2.1 cnt ex2 hg
    refine ⟨fun h => ?_, hwf2⟩
    cases h

/-- Witness for C10 on an input line whose end timestamp exceeds the
representable range (the query `C 0 9000000000000000` of the claim). -/
theorem c10_no_timestamp_panic_witness :
    (get_count envW .TakerTrades ⟨-9000000000000, -8999999999999⟩ emptyCache).1 ≠
        .error .tsPanic ∧
      CacheWF envW.allFills
        (get_count envW .TakerTrades ⟨-9000000000000, -8999999999999⟩ emptyCache).2.cache :=
  c10_no_timestamp_panic envW .TakerTrades ⟨-9000000000000, -8999999999999⟩ emptyCache
    (by decide)

/-- Claim C8: during any resolution all merged `Count` values carry the
tag determined by the query kind (`count_from_range` returns the
variant selected by the kind), so the `unreachable!` branch of
`Count::add` is never reached: `get_count` never fails with the
mismatched-tag panic, for any input against a well-formed cache. -/
theorem c8_no_mismatched_tag_panic (env : Env) (qt : QueryType) (r : TimeRange)
    (cache : Cache) (hwf : CacheWF env.allFills cache) :
    (get_count env qt r cache).1 ≠ .error .addPanic := by
  rcases hg : get_count env qt r cache with ⟨res, ex2⟩
  cases res with
  | error e =>
    obtain ⟨he, _⟩ := (get_count_spec env qt r cache hwf).1 e ex2 hg
    subst he
    exact fun h => by cases h
  | ok cnt =>
    exact fun h => by cases h

/-- Witness for C8 on a concrete volume query. -/
theorem c8_no_mismatched_tag_panic_witness :
    (get_count envW .TradingVolume ⟨50, 150⟩ emptyCache).1 ≠ .error .addPanic :=
  c8_no_mismatched_tag_panic envW .TradingVolume ⟨50, 150⟩ emptyCache (by decide)

/-! ### The slot decomposition chain (claim C9) -/

/-- The slot pieces produced by `Query::time_slots_map` form a chain:
each piece starts where the previous ended, pieces are nonempty, stay
within the query interval and within the slot-aligned bucket of their
start, and the pieces jointly cover `(cur, stop]` exactly. -/
def ChainFrom (stop : Int) : Int → List (Int × Int × Int) → Prop
  | cur, [] => ¬ cur < stop
  | cur, (s, a, b) :: rest =>
      s = slotOf cur ∧ a = cur ∧ cur < stop ∧ cur < b ∧ b ≤ stop ∧
        b ≤ slotOf cur + SLOT_SIZE ∧ (b ≠ stop → b = slotOf cur + SLOT_SIZE) ∧
        ChainFrom stop b rest

theorem timeSlotsF_chain (stop : Int) :
    ∀ (fuel : Nat) (cur : Int), (stop - cur).toNat ≤ fuel →
      ChainFrom stop cur (timeSlotsF fuel stop cur) := by
  intro fuel
  induction fuel with
  | zero =>
    intro cur hfuel
    have hcs : ¬ cur < stop := by omega
    simp only [timeSlotsF]
    exact hcs
  | succ fuel ih =>
    intro cur hfuel
    by_cases hcs : cur < stop
    · have hgt := nextTime_gt stop cur hcs
      have hle := nextTime_le stop cur hcs
      have hslot : nextTime stop cur ≤ slotOf cur + SLOT_SIZE := by
        unfold nextTime
        split <;> omega
      have hexact : nextTime stop cur ≠ stop → nextTime stop cur = slotOf cur + SLOT_SIZE := by
        unfold nextTime
        split
        · intro h
          exact absurd rfl h
        · intro _
          rfl
      simp only [timeSlotsF, if_pos hcs]
      exact ⟨rfl, rfl, hcs, hgt, hle, hslot, hexact, ih (nextTime stop cur) (by omega)⟩
    · simp only [timeSlotsF, if_neg hcs]
      exact hcs

theorem time_slots_map_chain (r : TimeRange) :
    ChainFrom r.endTs r.startTs (time_slots_map r) :=
  timeSlotsF_chain r.endTs (r.endTs - r.startTs).toNat r.startTs le_rfl

/-- Every piece of a chain starting at a nonnegative time lies inside
the slot-aligned bucket `[s, s + SLOT_SIZE]` of its slot key. -/
theorem chain_pieces_in_bucket (stop : Int) :
    ∀ (l : List (Int × Int × Int)) (cur : Int), 0 ≤ cur → ChainFrom stop cur l →
      ∀ p ∈ l, p.1 ≤ p.2.1 ∧ p.2.1 < p.2.2 ∧ p.2.2 ≤ p.1 + SLOT_SIZE := by
  intro l
  induction l with
  | nil =>
    intro cur _ _ p hp
    cases hp
  | cons q rest ih =>
    obtain ⟨s, a, b⟩ := q
    intro cur hcur hchain p hp
    obtain ⟨hs, ha, hcs, hab, hbs, hbslot, _, hrest⟩ := hchain
    rcases List.mem_cons.mp hp with hp | hp
    · subst hp
      refine ⟨?_, ?_, ?_⟩
      · show s ≤ a
        rw [hs, ha]
        exact slotOf_le cur hcur
      · show a < b
        omega
      · show b ≤ s + SLOT_SIZE
        rw [hs]
        exact hbslot
    · exact ih b (by omega) hrest p hp

/-! ### Lock discipline over the event trace (claim C2) -/

/-- The nesting depth of the cache mutex after a list of events,
starting from depth `d`. -/
def lockDepth : Nat → List Event → Nat
  | d, [] => d
  | d, .lockAcquire :: r => lockDepth (d + 1) r
  | d, .lockRelease :: r => lockDepth (d - 1) r
  | d, .fetchGap _ _ :: r => lockDepth d r
  | d, .fetchMiss _ _ :: r => lockDepth d r

/-- The lock discipline the code actually follows: every `!done`
remaining-range fetch (`fetchMiss`) is issued with the lock released
(depth `0`), and every containing-branch gap fetch (`fetchGap`) is
issued while holding the lock (depth exactly `1`). -/
def lockCheck : Nat → List Event → Bool
  | _, [] => true
  | d, .lockAcquire :: r => lockCheck (d + 1) r
  | d, .lockRelease :: r => lockCheck (d - 1) r
  | d, .fetchGap _ _ :: r => decide (d = 1) && lockCheck d r
  | d, .fetchMiss _ _ :: r => decide (d = 0) && lockCheck d r

/-- Whether any backend fetch event occurs while the lock is held. -/
def fetchWhileLocked : Nat → List Event → Bool
  | _, [] => false
  | d, .lockAcquire :: r => fetchWhileLocked (d + 1) r
  | d, .lockRelease :: r => fetchWhileLocked (d - 1) r
  | d, .fetchGap _ _ :: r => decide (0 < d) || fetchWhileLocked d r
  | d, .fetchMiss _ _ :: r => decide (0 < d) || fetchWhileLocked d r

theorem lockDepth_append : ∀ (xs ys : List Event) (d : Nat),
    lockDepth d (xs ++ ys) = lockDepth (lockDepth d xs) ys := by
  intro xs
  induction xs with
  | nil => intro ys d; rfl
  | cons e rest ih =>
    intro ys d
    cases e <;> simp only [List.cons_append, lockDepth] <;> apply ih

theorem lockCheck_append : ∀ (xs ys : List Event) (d : Nat),
    lockCheck d (xs ++ ys) = (lockCheck d xs && lockCheck (lockDepth d xs) ys) := by
  intro xs
  induction xs with
  | nil => intro ys d; rfl
  | cons e rest ih =>
    intro ys d
    cases e with
    | lockAcquire =>
      simp only [List.cons_append, lockCheck, lockDepth]
      exact ih ys (d + 1)
    | lockRelease =>
      simp only [List.cons_append, lockCheck, lockDepth]
      exact ih ys (d - 1)
    | fetchGap a b =>
      simp only [List.cons_append, lockCheck, lockDepth]
      rw [show rest.append ys = rest ++ ys from rfl, ih ys d, Bool.and_assoc]
    | fetchMiss a b =>
      simp only [List.cons_append, lockCheck, lockDepth]
      rw [show rest.append ys = rest ++ ys from rfl, ih ys d, Bool.and_assoc]

theorem gapOnly_nil : ∀ ev ∈ ([] : List Event), ∃ x y, ev = Event.fetchGap x y :=
  fun ev h => absurd h (List.not_mem_nil ev)

theorem gapOnly_one (a b : Int) :
    ∀ ev ∈ [Event.fetchGap a b], ∃ x y, ev = Event.fetchGap x y := by
  intro ev h
  rcases List.mem_singleton.mp h with h
  exact ⟨a, b, h⟩

theorem gapOnly_two (a b c d : Int) :
    ∀ ev ∈ [Event.fetchGap a b, Event.fetchGap c d], ∃ x y, ev = Event.fetchGap x y := by
  intro ev h
  rcases List.mem_cons.mp h with h | h
  · exact ⟨a, b, h⟩
  · rcases List.mem_singleton.mp h with h
    exact ⟨c, d, h⟩

/-- The bucket scan only ever appends gap-fetch events to the trace. -/
theorem scan_trace (env : Env) (qt : QueryType) :
    ∀ (entries : List (TimeRange × List Fill)) (st : ScanSt) (ex : Exec),
      ∃ evs, (scan env qt entries st ex).2.trace = ex.trace ++ evs ∧
        ∀ ev ∈ evs, ∃ x y, ev = Event.fetchGap x y := by
  intro entries
  induction entries with
  | nil =>
    intro st ex
    exact ⟨[], by simp [scan], gapOnly_nil⟩
  | cons entry rest ih =>
    obtain ⟨cr, fills⟩ := entry
    intro st ex
    by_cases hov : st.qs ≤ cr.endTs ∧ cr.startTs ≤ st.qe
    · by_cases h1 : cr.startTs ≤ st.qs ∧ st.qe ≤ cr.endTs
      · cases hcf : count_from_range env qt fills ⟨st.qs, st.qe⟩ with
        | none => exact ⟨[], by simp [scan, if_pos hov, if_pos h1, hcf], gapOnly_nil⟩
        | some c =>
          cases hmc : mergeCount st.count c with
          | none => exact ⟨[], by simp [scan, if_pos hov, if_pos h1, hcf, hmc], gapOnly_nil⟩
          | some cnt => exact ⟨[], by simp [scan, if_pos hov, if_pos h1, hcf, hmc], gapOnly_nil⟩
      · by_cases h2 : st.qs ≤ cr.startTs ∧ cr.endTs ≤ st.qe
        · cases hcf : count_from_range env qt fills ⟨cr.startTs, cr.endTs⟩ with
          | none =>
            exact ⟨[], by simp [scan, if_pos hov, if_neg h1, if_pos h2, hcf], gapOnly_nil⟩
          | some c =>
            cases hmc : mergeCount st.count c with
            | none =>
              exact ⟨[], by simp [scan, if_pos hov, if_neg h1, if_pos h2, hcf, hmc],
                gapOnly_nil⟩
            | some cnt =>
              cases hf1 : get_fills_api env.allFills st.qs cr.startTs with
              | error e =>
                refine ⟨[Event.fetchGap st.qs cr.startTs], ?_,
                  gapOnly_one st.qs cr.startTs⟩
                simp [scan, if_pos hov, if_neg h1, if_pos h2, hcf, hmc, hf1, Exec.emit]
              | ok before =>
                cases hf2 : get_fills_api env.allFills cr.endTs st.qe with
                | error e =>
                  refine ⟨[Event.fetchGap st.qs cr.startTs, Event.fetchGap cr.endTs st.qe],
                    ?_, gapOnly_two _ _ _ _⟩
                  simp [scan, if_pos hov, if_neg h1, if_pos h2, hcf, hmc, hf1, hf2, Exec.emit]
                | ok after =>
                  cases hbc : count_from_range env qt before ⟨st.qs, cr.startTs⟩ with
                  | none =>
                    refine ⟨[Event.fetchGap st.qs cr.startTs, Event.fetchGap cr.endTs st.qe],
                      ?_, gapOnly_two _ _ _ _⟩
                    simp [scan, if_pos hov, if_neg h1, if_pos h2, hcf, hmc, hf1, hf2, hbc,
                      Exec.emit]
                  | some bc =>
                    cases hac : count_from_range env qt after ⟨cr.endTs, st.qe⟩ with
                    | none =>
                      refine ⟨[Event.fetchGap st.qs cr.startTs,
                        Event.fetchGap cr.endTs st.qe], ?_, gapOnly_two _ _ _ _⟩
                      simp [scan, if_pos hov, if_neg h1, if_pos h2, hcf, hmc, hf1, hf2,
                        hbc, hac, Exec.emit]
                    | some ac =>
                      cases hA1 : cnt.add bc with
                      | none =>
                        refine ⟨[Event.fetchGap st.qs cr.startTs,
                          Event.fetchGap cr.endTs st.qe], ?_, gapOnly_two _ _ _ _⟩
                        simp [scan, if_pos hov, if_neg h1, if_pos h2, hcf, hmc, hf1, hf2,
                          hbc, hac, hA1, Exec.emit]
                      | some cnt2 =>
                        cases hA2 : cnt2.add ac with
                        | none =>
                          refine ⟨[Event.fetchGap st.qs cr.startTs,
                            Event.fetchGap cr.endTs st.qe], ?_, gapOnly_two _ _ _ _⟩
                          simp [scan, if_pos hov, if_neg h1, if_pos h2, hcf, hmc, hf1, hf2,
                            hbc, hac, hA1, hA2, Exec.emit]
                        | some cnt3 =>
                          refine ⟨[Event.fetchGap st.qs cr.startTs,
                            Event.fetchGap cr.endTs st.qe], ?_, gapOnly_two _ _ _ _⟩
                          simp [scan, if_pos hov, if_neg h1, if_pos h2, hcf, hmc, hf1, hf2,
                            hbc, hac, hA1, hA2, Exec.emit]
        · by_cases h3 : st.qs ≤ cr.startTs ∧ st.qe ≤ cr.endTs
          · cases hcf : count_from_range env qt fills ⟨cr.startTs, st.qe⟩ with
            | none =>
              exact ⟨[], by simp [scan, if_pos hov, if_neg h1, if_neg h2, if_pos h3, hcf],
                gapOnly_nil⟩
            | some c =>
              cases hmc : mergeCount st.count c with
              | none =>
                exact ⟨[], by simp [scan, if_pos hov, if_neg h1, if_neg h2, if_pos h3,
                  hcf, hmc], gapOnly_nil⟩
              | some cnt =>
                obtain ⟨evs, htr, hgap⟩ := ih
                  { st with qe := cr.startTs, count := some cnt } ex
                refine ⟨evs, ?_, hgap⟩
                rw [← htr]
                congr 1
                simp [scan, if_pos hov, if_neg h1, if_neg h2, if_pos h3, hcf, hmc]
          · by_cases h4 : cr.startTs ≤ st.qs ∧ cr.endTs ≤ st.qe
            · cases hcf : count_from_range env qt fills ⟨st.qs, cr.endTs⟩ with
              | none =>
                exact ⟨[], by simp [scan, if_pos hov, if_neg h1, if_neg h2, if_neg h3,
                  if_pos h4, hcf], gapOnly_nil⟩
              | some c =>
                cases hmc : mergeCount st.count c with
                | none =>
                  exact ⟨[], by simp [scan, if_pos hov, if_neg h1, if_neg h2, if_neg h3,
                    if_pos h4, hcf, hmc], gapOnly_nil⟩
                | some cnt =>
                  obtain ⟨evs, htr, hgap⟩ := ih
                    { st with qs := cr.endTs, count := some cnt } ex
                  refine ⟨evs, ?_, hgap⟩
                  rw [← htr]
                  congr 1
                  simp [scan, if_pos hov, if_neg h1, if_neg h2, if_neg h3, if_pos h4,
                    hcf, hmc]
            · obtain ⟨evs, htr, hgap⟩ := ih st ex
              refine ⟨evs, ?_, hgap⟩
              rw [← htr]
              congr 1
              simp [scan, if_pos hov, if_neg h1, if_neg h2, if_neg h3, if_neg h4]
    · obtain ⟨evs, htr, hgap⟩ := ih st ex
      refine ⟨evs, ?_, hgap⟩
      rw [← htr]
      congr 1
      simp [scan, if_neg hov]

/-- A gap-only event segment keeps the lock depth unchanged and is
accepted by the discipline checker exactly at depth 1. -/
theorem gapOnly_lockCheck : ∀ (evs : List Event),
    (∀ ev ∈ evs, ∃ x y, ev = Event.fetchGap x y) →
    lockCheck 1 evs = true ∧ ∀ d, lockDepth d evs = d := by
  intro evs
  induction evs with
  | nil => intro _; exact ⟨rfl, fun d => rfl⟩
  | cons ev rest ih =>
    intro h
    obtain ⟨x, y, hev⟩ := h ev (List.mem_cons_self ev rest)
    subst hev
    obtain ⟨hc, hd⟩ := ih (fun ev2 h2 => h ev2 (List.mem_cons_of_mem _ h2))
    refine ⟨?_, fun d => hd d⟩
    simp [lockCheck, hc]

/-- Trace shape of the `!done` branch: it appends the miss-fetch event
at depth 0 and, on success, a balanced acquire/release pair. -/
theorem missStep_trace (env : Env) (qt : QueryType) (slot : Int) (st : ScanSt)
    (ex : Exec) :
    ∃ evs, (missStep env qt slot st ex).2.trace = ex.trace ++ evs ∧
      lockCheck 0 evs = true ∧ lockDepth 0 evs = 0 := by
  cases hf : get_fills_api env.allFills st.qs st.qe with
  | error e =>
    refine ⟨[Event.fetchMiss st.qs st.qe], ?_, rfl, rfl⟩
    simp [missStep, hf, Exec.emit]
  | ok fs =>
    cases hcf : count_from_range env qt fs ⟨st.qs, st.qe⟩ with
    | none =>
      refine ⟨[Event.fetchMiss st.qs st.qe], ?_, rfl, rfl⟩
      simp [missStep, hf, hcf, Exec.emit]
    | some c =>
      cases hmc : mergeCount st.count c with
      | none =>
        refine ⟨[Event.fetchMiss st.qs st.qe], ?_, rfl, rfl⟩
        simp [missStep, hf, hcf, hmc, Exec.emit]
      | some cnt =>
        refine ⟨[Event.fetchMiss st.qs st.qe, Event.lockAcquire, Event.lockRelease],
          ?_, rfl, rfl⟩
        simp [missStep, hf, hcf, hmc, Exec.emit]

/-- Trace shape of the `to_update` application: nothing or a balanced
acquire/release pair. -/
theorem updateStep_trace (slot : Int) (st : ScanSt) (ex : Exec) :
    ∃ evs, (updateStep slot st ex).trace = ex.trace ++ evs ∧
      lockCheck 0 evs = true ∧ lockDepth 0 evs = 0 := by
  unfold updateStep
  split
  · exact ⟨[], by simp, rfl, rfl⟩
  · exact ⟨[Event.lockAcquire, Event.lockRelease], by simp [Exec.emit], rfl, rfl⟩

theorem Exec.emit_trace (ex : Exec) (e : Event) : (ex.emit e).trace = ex.trace ++ [e] := rfl

/-- Trace shape of one slot-piece iteration: the appended segment obeys
the lock discipline (miss fetches unlocked, gap fetches under exactly
one lock) and, on success, is lock-balanced. -/
theorem processSlot_trace (env : Env) (qt : QueryType) (slot a b : Int)
    (count0 : Option Count) (ex : Exec) :
    ∃ evs, (processSlot env qt slot a b count0 ex).2.trace = ex.trace ++ evs ∧
      lockCheck 0 evs = true ∧
      (∀ cnt ex2, processSlot env qt slot a b count0 ex = (.ok cnt, ex2) →
        lockDepth 0 evs = 0) := by
  cases hob : (ex.cache.get slot).1 with
  | none =>
    rcases hm : missStep env qt slot ⟨a, b, count0, []⟩
        ({ ex.emit .lockAcquire with cache := (ex.cache.get slot).2 }.emit .lockRelease)
      with ⟨mres, ex5⟩
    obtain ⟨evs1, htr1, hck1, hdp1⟩ := missStep_trace env qt slot ⟨a, b, count0, []⟩
      ({ ex.emit .lockAcquire with cache := (ex.cache.get slot).2 }.emit .lockRelease)
    rw [hm] at htr1
    have htr1b : ex5.trace =
        ex.trace ++ (Event.lockAcquire :: Event.lockRelease :: evs1) := by
      simpa [Exec.emit_trace] using htr1
    cases mres with
    | error e =>
      have hrun : processSlot env qt slot a b count0 ex = (.error e, ex5) := by
        rw [processSlot_eq, hob]
        simp only [Bool.false_eq_true, if_false, hm]
      refine ⟨Event.lockAcquire :: Event.lockRelease :: evs1, ?_, ?_, ?_⟩
      · rw [hrun]
        exact htr1b
      · simp [lockCheck, hck1]
      · intro cnt ex2 h
        rw [hrun] at h
        simp only [Prod.mk.injEq] at h
        obtain ⟨h1', _⟩ := h
        cases h1'
    | ok cnt =>
      obtain ⟨evs2, htr2, hck2, hdp2⟩ := updateStep_trace slot ⟨a, b, count0, []⟩ ex5
      have hrun : processSlot env qt slot a b count0 ex =
          (.ok cnt, updateStep slot ⟨a, b, count0, []⟩ ex5) := by
        rw [processSlot_eq, hob]
        simp only [Bool.false_eq_true, if_false, hm]
      refine ⟨Event.lockAcquire :: Event.lockRelease :: (evs1 ++ evs2), ?_, ?_, ?_⟩
      · rw [hrun]
        show (updateStep slot ⟨a, b, count0, []⟩ ex5).trace = _
        rw [htr2, htr1b]
        simp [List.append_assoc]
      · simp [lockCheck, lockCheck_append, hck1, hck2, hdp1]
      · intro cnt2 ex2 h
        simp [lockDepth, lockDepth_append, hdp1, hdp2]
  | some bucket =>
    obtain ⟨evs0, htr0, hgap0⟩ := scan_trace env qt bucket ⟨a, b, count0, []⟩
      { ex.emit .lockAcquire with cache := (ex.cache.get slot).2 }
    obtain ⟨hckg, hdpg⟩ := gapOnly_lockCheck evs0 hgap0
    rcases hsc : scan env qt bucket ⟨a, b, count0, []⟩
        { ex.emit .lockAcquire with cache := (ex.cache.get slot).2 }
      with ⟨sres, ex3⟩
    rw [hsc] at htr0
    have htr0b : ex3.trace = ex.trace ++ (Event.lockAcquire :: evs0) := by
      simpa [Exec.emit_trace] using htr0
    cases sres with
    | error e =>
      have hrun : processSlot env qt slot a b count0 ex = (.error e, ex3) := by
        rw [processSlot_eq, hob]
        simp only [hsc]
      refine ⟨Event.lockAcquire :: evs0, ?_, ?_, ?_⟩
      · rw [hrun]
        exact htr0b
      · simp [lockCheck, hckg]
      · intro cnt ex2 h
        rw [hrun] at h
        simp only [Prod.mk.injEq] at h
        obtain ⟨h1', _⟩ := h
        cases h1'
    | ok stdn =>
      obtain ⟨st, done⟩ := stdn
      cases done with
      | true =>
        obtain ⟨evs2, htr2, hck2, hdp2⟩ :=
          updateStep_trace slot st (ex3.emit .lockRelease)
        have hrun : processSlot env qt slot a b count0 ex =
            (.ok st.count, updateStep slot st (ex3.emit .lockRelease)) := by
          rw [processSlot_eq, hob]
          simp only [hsc, if_true]
        refine ⟨Event.lockAcquire :: (evs0 ++ Event.lockRelease :: evs2), ?_, ?_, ?_⟩
        · rw [hrun]
          show (updateStep slot st (ex3.emit .lockRelease)).trace = _
          rw [htr2, Exec.emit_trace, htr0b]
          simp [List.append_assoc]
        · simp [lockCheck, lockCheck_append, hckg, hdpg 1, hck2, lockDepth]
        · intro cnt ex2 h
          simp [lockDepth, lockDepth_append, hdpg 1, hdp2]
      | false =>
        rcases hm : missStep env qt slot st (ex3.emit .lockRelease) with ⟨mres, ex5⟩
        obtain ⟨evs1, htr1, hck1, hdp1⟩ :=
          missStep_trace env qt slot st (ex3.emit .lockRelease)
        rw [hm] at htr1
        have htr1b : ex5.trace =
            ex.trace ++ (Event.lockAcquire :: (evs0 ++ Event.lockRelease :: evs1)) := by
          have : ex5.trace = ex3.trace ++ [Event.lockRelease] ++ evs1 := by
            simpa [Exec.emit_trace] using htr1
          rw [this, htr0b]
          simp [List.append_assoc]
        cases mres with
        | error e =>
          have hrun : processSlot env qt slot a b count0 ex = (.error e, ex5) := by
            rw [processSlot_eq, hob]
            simp only [hsc, Bool.false_eq_true, if_false, hm]
          refine ⟨Event.lockAcquire :: (evs0 ++ Event.lockRelease :: evs1), ?_, ?_, ?_⟩
          · rw [hrun]
            exact htr1b
          · simp [lockCheck, lockCheck_append, hckg, hdpg 1, hck1, lockDepth]
          · intro cnt ex2 h
            rw [hrun] at h
            simp only [Prod.mk.injEq] at h
            obtain ⟨h1', _⟩ := h
            cases h1'
        | ok cnt =>
          obtain ⟨evs2, htr2, hck2, hdp2⟩ := updateStep_trace slot st ex5
          have hrun : processSlot env qt slot a b count0 ex =
              (.ok cnt, updateStep slot st ex5) := by
            rw [processSlot_eq, hob]
            simp only [hsc, Bool.false_eq_true, if_false, hm]
          refine ⟨Event.lockAcquire ::
            (evs0 ++ Event.lockRelease :: (evs1 ++ evs2)), ?_, ?_, ?_⟩
          · rw [hrun]
            show (updateStep slot st ex5).trace = _
            rw [htr2, htr1b]
            simp [List.append_assoc]
          · simp [lockCheck, lockCheck_append, hckg, hdpg 1, hck1, hck2, hdp1, lockDepth,
              lockDepth_append]
          · intro cnt2 ex2 h
            simp [lockDepth, lockDepth_append, hdpg 1, hdp1, hdp2]

/-- The whole slot fold appends a trace segment obeying the lock
discipline. -/
theorem get_countGo_trace (env : Env) (qt : QueryType) :
    ∀ (slots : List (Int × Int × Int)) (count0 : Option Count) (ex : Exec),
      ∃ evs, (get_countGo env qt slots count0 ex).2.trace = ex.trace ++ evs ∧
        lockCheck 0 evs = true := by
  intro slots
  induction slots with
  | nil =>
    intro count0 ex
    exact ⟨[], by simp [get_countGo], rfl⟩
  | cons piece rest ih =>
    obtain ⟨slot, a, b⟩ := piece
    intro count0 ex
    obtain ⟨evs1, htr1, hck1, hdp1⟩ := processSlot_trace env qt slot a b count0 ex
    rcases hp : processSlot env qt slot a b count0 ex with ⟨pres, ex2⟩
    rw [hp] at htr1
    cases pres with
    | error e =>
      refine ⟨evs1, ?_, hck1⟩
      simp only [get_countGo, hp]
      exact htr1
    | ok cnt =>
      obtain ⟨evs2, htr2, hck2⟩ := ih cnt ex2
      refine ⟨evs1 ++ evs2, ?_, ?_⟩
      · simp only [get_countGo, hp]
        rw [htr2]
        show ex2.trace ++ evs2 = _
        rw [htr1]
        simp [List.append_assoc]
      · rw [lockCheck_append, hck1, hdp1 cnt ex2 hp, hck2]
        rfl

/-- Claim C2 (amended): during `Query::get_count` the cache lock is
released before the remaining-range (cache-miss) fetch and reacquired
only afterwards to insert the fetched range — every `fetchMiss` event
occurs at lock depth 0 — but the two gap fetches of the containing
branch are issued while the lock is held (at depth exactly 1), as
`lockCheck` states. -/
theorem c2_lock_discipline (env : Env) (qt : QueryType) (r : TimeRange)
    (cache : Cache) :
    lockCheck 0 ((get_count env qt r cache).2.trace) = true := by
  obtain ⟨evs, htr, hck⟩ :=
    get_countGo_trace env qt (time_slots_map r) none ⟨cache, []⟩
  unfold get_count
  rw [htr]
  simpa using hck

/-- The dataset-free context used by concrete counterexample runs. -/
def env0 : Env := ⟨fun q => some q, []⟩

/-- A well-formed cache holding the single range `(50, 100]` in slot 0,
as produced by a prior resolution of that range. -/
def cacheC2 : Cache := ⟨[(0, [(⟨50, 100⟩, [])])]⟩

/-- Counterexample to claim C2 as stated: resolving `(0, 100]` against
a cache holding `(50, 100]` triggers the containing branch, whose two
gap fetches call `server::get_fills_api` while the worker still holds
the cache mutex — the claim that the lock is never held across a
backend fetch is false.  (The cache is well-formed, hence reachable in
kind.) -/
theorem c2_counterexample :
    CacheWF env0.allFills cacheC2 ∧
      fetchWhileLocked 0 ((get_count env0 .TakerTrades ⟨0, 100⟩ cacheC2).2.trace) = true := by
  constructor
  · decide
  · decide

/-- Counterexample to claim C9 as stated: Rust `/` truncates toward
zero, so for the negative timestamp `-1` the computed slot bucket id is
`0`, not `floor(-1 / 4500) * 4500 = -4500` as the claim's floor formula
requires. -/
theorem c9_counterexample :
    slotOf (-1) = 0 ∧ Int.fdiv (-1) SLOT_SIZE * SLOT_SIZE = -4500 ∧
      slotOf (-1) ≠ Int.fdiv (-1) SLOT_SIZE * SLOT_SIZE := by
  refine ⟨by decide, by decide, by decide⟩

/-- Claim C9 (amended): the slot bucket id is computed with Rust's
truncating division, which agrees with `floor(t / 4500) * 4500` for all
nonnegative timestamps (but not for negative ones); a query interval is
decomposed into a chain of sub-intervals whose union is exactly the
original interval (`ChainFrom`), and for nonnegative start times each
sub-interval lies within the single slot-aligned bucket of its slot
key. -/
theorem c9_slot_decomposition :
    (∀ t : Int, 0 ≤ t → slotOf t = Int.fdiv t SLOT_SIZE * SLOT_SIZE) ∧
    (∀ r : TimeRange, ChainFrom r.endTs r.startTs (time_slots_map r)) ∧
    (∀ r : TimeRange, 0 ≤ r.startTs →
      ∀ p ∈ time_slots_map r, p.1 ≤ p.2.1 ∧ p.2.1 < p.2.2 ∧ p.2.2 ≤ p.1 + SLOT_SIZE) := by
  refine ⟨?_, time_slots_map_chain, ?_⟩
  · intro t ht
    unfold slotOf SLOT_SIZE
    rw [Int.tdiv_eq_ediv ht (by norm_num), Int.fdiv_eq_ediv t (by norm_num)]
  · intro r hr p hp
    exact chain_pieces_in_bucket r.endTs (time_slots_map r) r.startTs hr
      (time_slots_map_chain r) p hp

/-- Witness for the amended C9 at the decomposition of `(50, 150]`. -/
theorem c9_slot_decomposition_witness :
    slotOf 50 = Int.fdiv 50 SLOT_SIZE * SLOT_SIZE ∧
      ChainFrom 150 50 (time_slots_map ⟨50, 150⟩) ∧
      (((0 : Int), (50 : Int), (150 : Int)).1 ≤ ((0 : Int), (50 : Int), (150 : Int)).2.1 ∧
        ((0 : Int), (50 : Int), (150 : Int)).2.1 < ((0 : Int), (50 : Int), (150 : Int)).2.2 ∧
        ((0 : Int), (50 : Int), (150 : Int)).2.2 ≤
          ((0 : Int), (50 : Int), (150 : Int)).1 + SLOT_SIZE) :=
  ⟨c9_slot_decomposition.1 50 (by norm_num),
   c9_slot_decomposition.2.1 ⟨50, 150⟩,
   c9_slot_decomposition.2.2 ⟨50, 150⟩ (by norm_num) (0, 50, 150) (by decide)⟩

/-! ### Chain facts used by the idempotence analysis (claim C5) -/

theorem chain_valid (stop : Int) :
    ∀ (l : List (Int × Int × Int)) (cur : Int), ChainFrom stop cur l →
      validTs cur → validTs stop →
      ∀ p ∈ l, validTs p.2.1 ∧ validTs p.2.2 ∧ p.2.1 ≤ p.2.2 := by
  intro l
  induction l with
  | nil =>
    intro cur _ _ _ p hp
    cases hp
  | cons q rest ih =>
    obtain ⟨s, a, b⟩ := q
    intro cur hchain hvc hvs p hp
    obtain ⟨hs, ha, hcs, hab, hbs, _, _, hrest⟩ := hchain
    have hvb : validTs b := validTs_between hvc hvs (by omega) hbs
    rcases List.mem_cons.mp hp with hp | hp
    · subst hp
      refine ⟨?_, hvb, ?_⟩
      · show validTs a
        rw [ha]
        exact hvc
      · show a ≤ b
        omega
    · exact ih b hrest hvb hvs p hp

theorem chain_slots_ge (stop : Int) :
    ∀ (l : List (Int × Int × Int)) (cur : Int), ChainFrom stop cur l →
      ∀ p ∈ l, slotOf cur ≤ p.1 := by
  intro l
  induction l with
  | nil =>
    intro cur _ p hp
    cases hp
  | cons q rest ih =>
    obtain ⟨s, a, b⟩ := q
    intro cur hchain p hp
    obtain ⟨hs, ha, hcs, hab, hbs, hbslot, hexact, hrest⟩ := hchain
    rcases List.mem_cons.mp hp with hp | hp
    · subst hp
      simp only
      omega
    · have hge := ih b hrest p hp
      cases rest with
      | nil => cases hp
      | cons q2 rest2 =>
        have hblt : b < stop := by
          obtain ⟨s2, a2, b2⟩ := q2
          obtain ⟨_, ha2, hlt, _⟩ := hrest
          omega
        have hbne : b ≠ stop := by omega
        have hb : b = slotOf cur + SLOT_SIZE := hexact hbne
        have hsb : slotOf b = slotOf cur + SLOT_SIZE := by
          rw [hb]
          have : slotOf cur + SLOT_SIZE = (Int.tdiv cur SLOT_SIZE + 1) * SLOT_SIZE := by
            unfold slotOf
            ring
          rw [this, slotOf_mul]
        have hpos : (0 : Int) < SLOT_SIZE := by norm_num [SLOT_SIZE]
        omega

theorem chain_keys_pairwise (stop : Int) :
    ∀ (l : List (Int × Int × Int)) (cur : Int), ChainFrom stop cur l →
      l.Pairwise (fun p q => p.1 ≠ q.1) := by
  intro l
  induction l with
  | nil =>
    intro cur _
    exact List.Pairwise.nil
  | cons q rest ih =>
    obtain ⟨s, a, b⟩ := q
    intro cur hchain
    obtain ⟨hs, ha, hcs, hab, hbs, hbslot, hexact, hrest⟩ := hchain
    refine List.Pairwise.cons ?_ (ih b hrest)
    intro p hp
    have hge := chain_slots_ge stop rest b hrest p hp
    cases rest with
    | nil => cases hp
    | cons q2 rest2 =>
      have hblt : b < stop := by
        obtain ⟨s2, a2, b2⟩ := q2
        obtain ⟨_, ha2, hlt, _⟩ := hrest
        omega
      have hb : b = slotOf cur + SLOT_SIZE := hexact (by omega)
      have hsb : slotOf b = slotOf cur + SLOT_SIZE := by
        rw [hb]
        have h2 : slotOf cur + SLOT_SIZE = (Int.tdiv cur SLOT_SIZE + 1) * SLOT_SIZE := by
          unfold slotOf
          ring
        rw [h2, slotOf_mul]
      have hpos : (0 : Int) < SLOT_SIZE := by norm_num [SLOT_SIZE]
      simp only
      omega

/-! ### Cache micro-lemmas for the idempotence analysis -/

theorem Cache.lookup_none_forall {c : Cache} {k : Int} (h : c.lookup k = none) :
    ∀ kb ∈ c.entries, kb.1 ≠ k := by
  unfold Cache.lookup at h
  split at h
  · cases h
  · rename_i hfind
    intro kb hkb
    have := List.find?_eq_none.mp hfind kb hkb
    simpa using this

theorem Cache.get_none (c : Cache) (k : Int) (h : c.lookup k = none) :
    c.get k = (none, c) := by
  unfold Cache.get
  rw [h]

theorem Cache.insertFills_fresh (c : Cache) (k : Int) (r : TimeRange) (fs : List Fill)
    (h : c.lookup k = none) (hlen : c.entries.length < CACHE_SIZE) :
    (c.insertFills k r fs).entries = (k, [(r, fs)]) :: c.entries := by
  unfold Cache.insertFills
  rw [h]
  have hb : bucketInsert [] r fs = [(r, fs)] := rfl
  rw [hb]
  unfold Cache.put
  have hfil : c.entries.filter (fun kb => decide (kb.1 ≠ k)) = c.entries := by
    apply List.filter_eq_self.mpr
    intro kb hkb
    simpa using Cache.lookup_none_forall h kb hkb
  simp only [hfil]
  have : ¬ CACHE_SIZE < ((k, [(r, fs)]) :: c.entries).length := by
    simp only [List.length_cons]
    omega
  rw [if_neg this]

theorem Cache.lookup_cons (s : Int) (b : Bucket) (es : List (Int × Bucket)) (k : Int) :
    (⟨(s, b) :: es⟩ : Cache).lookup k =
      if s = k then some b else (⟨es⟩ : Cache).lookup k := by
  unfold Cache.lookup
  by_cases h : s = k
  · rw [List.find?_cons_of_pos _ (by simpa using h), if_pos h]
  · rw [List.find?_cons_of_neg _ (by simpa using h), if_neg h]

theorem Cache.lookup_of_mem :
    ∀ (es : List (Int × Bucket)) (s : Int) (b : Bucket),
      es.Pairwise (fun x y => x.1 ≠ y.1) → (s, b) ∈ es →
      (⟨es⟩ : Cache).lookup s = some b := by
  intro es
  induction es with
  | nil =>
    intro s b _ hm
    cases hm
  | cons kb rest ih =>
    obtain ⟨k0, b0⟩ := kb
    intro s b hnd hm
    rcases List.mem_cons.mp hm with hm | hm
    · injection hm with h1 h2
      subst h1 h2
      rw [Cache.lookup_cons, if_pos rfl]
    · have hne : k0 ≠ s := by
        have := (List.pairwise_cons.mp hnd).1 (s, b) hm
        simpa using this
      rw [Cache.lookup_cons, if_neg hne]
      exact ih s b (List.pairwise_cons.mp hnd).2 hm

theorem Cache.promote_mem {c : Cache} {k : Int} {b : Bucket} :
    ∀ kb ∈ c.entries, kb.1 ≠ k → kb ∈ (c.promote k b).entries := by
  intro kb hkb hne
  unfold Cache.promote
  exact List.mem_cons_of_mem _ (List.mem_filter.mpr ⟨hkb, by simpa using hne⟩)

theorem Cache.promote_pairwise {c : Cache} {k : Int} {b : Bucket}
    (hnd : c.entries.Pairwise (fun x y => x.1 ≠ y.1)) :
    (c.promote k b).entries.Pairwise (fun x y => x.1 ≠ y.1) := by
  unfold Cache.promote
  refine List.pairwise_cons.mpr ⟨?_, List.Pairwise.filter _ hnd⟩
  intro kb hkb
  have := (List.mem_filter.mp hkb).2
  simp only [decide_eq_true_eq] at this
  exact fun h => this (h ▸ rfl)

/-- Evaluating one slot piece whose bucket is absent: the whole piece
is fetched from the backend and inserted as a fresh singleton bucket. -/
theorem processSlot_fresh (env : Env) (qt : QueryType) (s a b : Int)
    (count0 : Option Count) (ex : Exec) (hlk : ex.cache.lookup s = none)
    (hlen : ex.cache.entries.length < CACHE_SIZE) (_hab : a ≤ b)
    (hva : validTs a) (hvb : validTs b) (hci : CountInv qt count0) :
    processSlot env qt s a b count0 ex =
      (.ok (some (mergeO count0 (aggVal env qt env.allFills a b))),
        ⟨⟨(s, [(⟨a, b⟩, backendFills env.allFills a b)]) :: ex.cache.entries⟩,
          ex.trace ++ [.lockAcquire, .lockRelease, .fetchMiss a b,
            .lockAcquire, .lockRelease]⟩) := by
  have htag := aggVal_tag env qt env.allFills a b
  have hins := Cache.insertFills_fresh ex.cache s ⟨a, b⟩
    (backendFills env.allFills a b) hlk hlen
  rw [processSlot_eq, Cache.get_none ex.cache s hlk]
  simp only [missStep, updateStep, get_fills_api_valid env.allFills a b hva hvb,
    count_cached env qt rfl le_rfl le_rfl hva hvb, mergeCount_inv hci htag,
    Exec.emit, Bool.false_eq_true, if_false, List.isEmpty_nil, if_true,
    List.append_assoc]
  refine Prod.ext rfl ?_
  show Exec.mk _ _ = Exec.mk _ _
  congr 1
  show Cache.insertFills ex.cache s ⟨a, b⟩ (backendFills env.allFills a b) = _
  exact congrArg Cache.mk hins

/-- Evaluating one slot piece whose bucket holds exactly the piece's
own range: the contained branch answers from the cache with no fetch
and no insertion (only the LRU promotion). -/
theorem processSlot_hit (env : Env) (qt : QueryType) (s a b : Int)
    (count0 : Option Count) (ex : Exec)
    (hlk : ex.cache.lookup s = some [(⟨a, b⟩, backendFills env.allFills a b)])
    (hab : a ≤ b) (hva : validTs a) (hvb : validTs b) (hci : CountInv qt count0) :
    processSlot env qt s a b count0 ex =
      (.ok (some (mergeO count0 (aggVal env qt env.allFills a b))),
        ⟨ex.cache.promote s [(⟨a, b⟩, backendFills env.allFills a b)],
          ex.trace ++ [.lockAcquire, .lockRelease]⟩) := by
  have htag := aggVal_tag env qt env.allFills a b
  have hget : ex.cache.get s =
      (some [(⟨a, b⟩, backendFills env.allFills a b)],
        ex.cache.promote s [(⟨a, b⟩, backendFills env.allFills a b)]) := by
    unfold Cache.get
    rw [hlk]
  rw [processSlot_eq, hget]
  simp only [scan, updateStep, if_pos (And.intro hab hab),
    if_pos (And.intro (le_refl a) (le_refl b)),
    count_cached env qt rfl le_rfl le_rfl hva hvb, mergeCount_inv hci htag,
    if_true, List.isEmpty_nil, Exec.emit, List.append_assoc]
  rfl

/-- The piece's cache entry after a fresh fetch. -/
def pieceEntry (env : Env) (p : Int × Int × Int) : Int × Bucket :=
  (p.1, [(⟨p.2.1, p.2.2⟩, backendFills env.allFills p.2.1 p.2.2)])

/-- First resolution over fresh slots: every piece misses, is fetched
whole and inserted; the final cache holds exactly one singleton bucket
per piece on top of the initial entries. -/
theorem run_fresh (env : Env) (qt : QueryType) :
    ∀ (ps : List (Int × Int × Int)) (count0 : Option Count) (ex : Exec),
      (∀ p ∈ ps, ex.cache.lookup p.1 = none) →
      ex.cache.entries.length + ps.length ≤ CACHE_SIZE →
      (∀ p ∈ ps, validTs p.2.1 ∧ validTs p.2.2 ∧ p.2.1 ≤ p.2.2) →
      ps.Pairwise (fun p q => p.1 ≠ q.1) →
      CountInv qt count0 →
      ∃ cnt tr2, get_countGo env qt ps count0 ex =
        (.ok cnt, ⟨⟨(ps.map (pieceEntry env)).reverse ++ ex.cache.entries⟩, tr2⟩) := by
  intro ps
  induction ps with
  | nil =>
    intro count0 ex _ _ _ _ _
    exact ⟨count0, ex.trace, by simp [get_countGo]⟩
  | cons p ps ih =>
    obtain ⟨s, a, b⟩ := p
    intro count0 ex hfresh hlen hvalid hpw hci
    have hC : CACHE_SIZE = 10000 := rfl
    have hlen1 : ex.cache.entries.length < CACHE_SIZE := by
      have := hlen
      simp only [List.length_cons] at this
      omega
    obtain ⟨hva, hvb, hab⟩ := hvalid (s, a, b) (List.mem_cons_self _ _)
    have hlk : ex.cache.lookup s = none := hfresh (s, a, b) (List.mem_cons_self _ _)
    have hps := processSlot_fresh env qt s a b count0 ex hlk hlen1 hab hva hvb hci
    have htag := aggVal_tag env qt env.allFills a b
    have hfresh2 : ∀ p ∈ ps,
        Cache.lookup ⟨(s, [(⟨a, b⟩, backendFills env.allFills a b)]) ::
          ex.cache.entries⟩ p.1 = none := by
      intro p hp
      rw [Cache.lookup_cons]
      have hne : s ≠ p.1 := by
        have := (List.pairwise_cons.mp hpw).1 p hp
        simpa using this
      rw [if_neg hne]
      exact hfresh p (List.mem_cons_of_mem _ hp)
    have hlen2 : ((s, [(⟨a, b⟩, backendFills env.allFills a b)]) ::
        ex.cache.entries).length + ps.length ≤ CACHE_SIZE := by
      simp only [List.length_cons]
      simp only [List.length_cons] at hlen
      omega
    obtain ⟨cnt, tr2, heq⟩ := ih (some (mergeO count0 (aggVal env qt env.allFills a b)))
      ⟨⟨(s, [(⟨a, b⟩, backendFills env.allFills a b)]) :: ex.cache.entries⟩,
        ex.trace ++ [.lockAcquire, .lockRelease, .fetchMiss a b,
          .lockAcquire, .lockRelease]⟩
      hfresh2 hlen2 (fun p hp => hvalid p (List.mem_cons_of_mem _ hp))
      (List.pairwise_cons.mp hpw).2 (CountInv.merge hci htag)
    refine ⟨cnt, tr2, ?_⟩
    have hrun : get_countGo env qt ((s, a, b) :: ps) count0 ex =
        get_countGo env qt ps (some (mergeO count0 (aggVal env qt env.allFills a b)))
          ⟨⟨(s, [(⟨a, b⟩, backendFills env.allFills a b)]) :: ex.cache.entries⟩,
            ex.trace ++ [.lockAcquire, .lockRelease, .fetchMiss a b,
              .lockAcquire, .lockRelease]⟩ := by
      simp only [get_countGo, hps]
    rw [hrun, heq]
    simp [pieceEntry, List.reverse_cons, List.append_assoc]

/-- Whether an event is a backend fetch. -/
def isFetch : Event → Bool
  | .fetchGap _ _ => true
  | .fetchMiss _ _ => true
  | _ => false

/-- Second resolution over fully cached pieces: every piece hits the
contained branch, no fetch event is emitted. -/
theorem run_hit (env : Env) (qt : QueryType) :
    ∀ (ps : List (Int × Int × Int)) (count0 : Option Count) (ex : Exec),
      (∀ p ∈ ps, pieceEntry env p ∈ ex.cache.entries) →
      ex.cache.entries.Pairwise (fun x y => x.1 ≠ y.1) →
      (∀ p ∈ ps, validTs p.2.1 ∧ validTs p.2.2 ∧ p.2.1 ≤ p.2.2) →
      ps.Pairwise (fun p q => p.1 ≠ q.1) →
      CountInv qt count0 →
      ∃ cnt ex2 evs, get_countGo env qt ps count0 ex = (.ok cnt, ex2) ∧
        ex2.trace = ex.trace ++ evs ∧ evs.all (fun ev => !isFetch ev) = true := by
  intro ps
  induction ps with
  | nil =>
    intro count0 ex _ _ _ _ _
    exact ⟨count0, ex, [], rfl, by simp, rfl⟩
  | cons p ps ih =>
    obtain ⟨s, a, b⟩ := p
    intro count0 ex hmem hnd hvalid hpw hci
    obtain ⟨hva, hvb, hab⟩ := hvalid (s, a, b) (List.mem_cons_self _ _)
    have hlk : ex.cache.lookup s = some [(⟨a, b⟩, backendFills env.allFills a b)] :=
      Cache.lookup_of_mem ex.cache.entries s _ hnd (hmem (s, a, b) (List.mem_cons_self _ _))
    have hps := processSlot_hit env qt s a b count0 ex hlk hab hva hvb hci
    have htag := aggVal_tag env qt env.allFills a b
    have hmem2 : ∀ p ∈ ps, pieceEntry env p ∈
        (ex.cache.promote s [(⟨a, b⟩, backendFills env.allFills a b)]).entries := by
      intro p hp
      refine Cache.promote_mem (pieceEntry env p) (hmem p (List.mem_cons_of_mem _ hp)) ?_
      show p.1 ≠ s
      have := (List.pairwise_cons.mp hpw).1 p hp
      simp only at this
      exact fun h => this h.symm
    obtain ⟨cnt, ex2, evs, heq, htr, hnf⟩ :=
      ih (some (mergeO count0 (aggVal env qt env.allFills a b)))
        ⟨ex.cache.promote s [(⟨a, b⟩, backendFills env.allFills a b)],
          ex.trace ++ [.lockAcquire, .lockRelease]⟩
        hmem2 (Cache.promote_pairwise hnd)
        (fun p hp => hvalid p (List.mem_cons_of_mem _ hp))
        (List.pairwise_cons.mp hpw).2 (CountInv.merge hci htag)
    refine ⟨cnt, ex2, [Event.lockAcquire, Event.lockRelease] ++ evs, ?_, ?_, ?_⟩
    · simp only [get_countGo, hps]
      exact heq
    · rw [htr]
      simp [List.append_assoc]
    · simp only [List.all_append, Bool.and_eq_true]
      exact ⟨rfl, hnf⟩

/-- The cache produced by resolving `(0, 100]` against a cache that
already held `(50, 100]` (the containing branch fires and inserts the
two gap ranges `(0, 50]` and `(100, 100]`). -/
def c5cache1 : Cache := (get_count env0 .TakerTrades ⟨0, 100⟩ cacheC2).2.cache

/-- Counterexample to claim C5 as stated: after a first resolution of
`(0, 100]` the sub-range `(0, 50]` is fully cached, yet a second
resolution of the same query re-fetches `(0, 50]` from the backend —
the scan breaks at the first overlapping cached range (`(50, 100]`,
the containing branch) and fetches the gaps again instead of using the
cached gap entries. -/
theorem c5_counterexample :
    CacheWF env0.allFills cacheC2 ∧
      c5cache1.entries.any
        (fun kb => kb.2.any (fun e => decide (e.1 = ⟨0, 50⟩))) = true ∧
      (get_count env0 .TakerTrades ⟨0, 100⟩ c5cache1).2.trace.any
        (fun ev => decide (ev = Event.fetchGap 0 50)) = true := by
  refine ⟨by decide, by decide, by decide⟩

/-- Claim C5 (amended): resolving the same `(kind, range)` twice yields
identical results; and when the first resolution starts from a cache
with no buckets for the query's slots (here: the empty cache, with the
query spanning at most `CACHE_SIZE` slots so nothing is evicted), the
second resolution issues no backend fetch at all.  In general a second
resolution may re-fetch cached sub-ranges (see the counterexample). -/
theorem c5_idempotent_from_empty (env : Env) (qt : QueryType) (r : TimeRange)
    (hst : SeqTime env.allFills) (hva : validTs r.startTs) (hvb : validTs r.endTs)
    (hlen : (time_slots_map r).length ≤ CACHE_SIZE) :
    (get_count env qt r ((get_count env qt r emptyCache).2.cache)).1 =
        (get_count env qt r emptyCache).1 ∧
      (get_count env qt r ((get_count env qt r emptyCache).2.cache)).2.trace.all
        (fun ev => !isFetch ev) = true := by
  have hchain := time_slots_map_chain r
  have hvalid := chain_valid r.endTs (time_slots_map r) r.startTs hchain hva hvb
  have hpw := chain_keys_pairwise r.endTs (time_slots_map r) r.startTs hchain
  obtain ⟨cnt1, tr1, heq1⟩ := run_fresh env qt (time_slots_map r) none ⟨emptyCache, []⟩
    (fun p _ => rfl) (by simpa [emptyCache] using hlen) hvalid hpw (CountInv.none qt)
  have hrun1 : get_count env qt r emptyCache =
      (.ok cnt1, ⟨⟨((time_slots_map r).map (pieceEntry env)).reverse ++
        emptyCache.entries⟩, tr1⟩) := heq1
  have hc1e : ((get_count env qt r emptyCache).2.cache).entries =
      ((time_slots_map r).map (pieceEntry env)).reverse := by
    rw [hrun1]
    simp [emptyCache]
  obtain ⟨cnt2, ex2, evs, heq2, htr2, hnf⟩ :=
    run_hit env qt (time_slots_map r) none
      ⟨(get_count env qt r emptyCache).2.cache, []⟩
      (by
        intro p hp
        show pieceEntry env p ∈ ((get_count env qt r emptyCache).2.cache).entries
        rw [hc1e]
        exact List.mem_reverse.mpr (List.mem_map_of_mem _ hp))
      (by
        show ((get_count env qt r emptyCache).2.cache).entries.Pairwise _
        rw [hc1e]
        rw [List.pairwise_reverse, List.pairwise_map]
        exact hpw.imp (fun h => fun h2 => h h2.symm))
      hvalid hpw (CountInv.none qt)
  have hrun2 : get_count env qt r ((get_count env qt r emptyCache).2.cache) =
      (.ok cnt2, ex2) := heq2
  have hwfE := CacheWF.empty env.allFills
  have hspec1 := (get_count_spec env qt r emptyCache hwfE).2.1 cnt1 _ hrun1
  have hwf1 : CacheWF env.allFills ((get_count env qt r emptyCache).2.cache) := by
    rw [hrun1]
    exact hspec1.1
  have hspec2 := (get_count_spec env qt r
    ((get_count env qt r emptyCache).2.cache) hwf1).2.1 cnt2 ex2 hrun2
  constructor
  · rw [hrun2, hrun1]
    show Except.ok cnt2 = Except.ok cnt1
    by_cases hlt : r.startTs < r.endTs
    · rw [(hspec2.2.2 hst).1 hlt, (hspec1.2.2 hst).1 hlt]
    · rw [(hspec2.2.2 hst).2 hlt, (hspec1.2.2 hst).2 hlt]
  · rw [hrun2]
    show ex2.trace.all _ = true
    rw [htr2]
    simpa using hnf

/-- Witness for the amended C5 at the specification's example scenario. -/
theorem c5_idempotent_from_empty_witness :
    (get_count envW .TakerTrades ⟨50, 150⟩
        ((get_count envW .TakerTrades ⟨50, 150⟩ emptyCache).2.cache)).1 =
        (get_count envW .TakerTrades ⟨50, 150⟩ emptyCache).1 ∧
      (get_count envW .TakerTrades ⟨50, 150⟩
        ((get_count envW .TakerTrades ⟨50, 150⟩ emptyCache).2.cache)).2.trace.all
        (fun ev => !isFetch ev) = true :=
  c5_idempotent_from_empty envW .TakerTrades ⟨50, 150⟩
    (by decide) (by decide) (by decide) (by decide)

/-! ### The command parser and the Processor (claims C3, C4, C6, C7) -/

/-- Accumulate the decimal value of a digit string; `none` on any
non-digit character (Rust `str::parse::<i64>` rejects it). -/
def digitsValAux : List Char → Nat → Option Nat
  | [], acc => some acc
  | c :: rest, acc =>
    if c.isDigit then digitsValAux rest (acc * 10 + (c.toNat - 48)) else none

/-- Parse an optional-sign decimal token with Rust `i64` range checking
(`str::parse::<i64>` fails on empty input, stray characters and
overflow). -/
def parseI64Core (sign : Int) (ds : List Char) : Option Int :=
  if ds.isEmpty then none
  else
    match digitsValAux ds 0 with
    | none => none
    | some n =>
      let v : Int := sign * (n : Int)
      if -(2 ^ 63) ≤ v ∧ v ≤ 2 ^ 63 - 1 then some v else none

/-- Model of `str::parse::<i64>` on one whitespace-free token. -/
def parseI64 : List Char → Option Int
  | '+' :: rest => parseI64Core 1 rest
  | '-' :: rest => parseI64Core (-1) rest
  | cs => parseI64Core 1 cs

/-- Model of `str::split_whitespace`: maximal non-whitespace runs. -/
def splitWsAux : List Char → List Char → List (List Char)
  | [], acc => if acc.isEmpty then [] else [acc.reverse]
  | c :: rest, acc =>
    if c.isWhitespace then
      if acc.isEmpty then splitWsAux rest []
      else acc.reverse :: splitWsAux rest []
    else splitWsAux rest (c :: acc)

def splitWs (s : String) : List (List Char) := splitWsAux s.toList []

/-- Model of `Query::from_str`: first token is the kind, the next two
are the range timestamps, extra tokens are ignored; any missing or
unparsable token or unknown kind yields a parse error (`none`).  The
source validates the kind after the timestamps, which has the same
`Option`-level result. -/
def parseQuery (s : String) : Option (QueryType × TimeRange) :=
  match splitWs s with
  | count :: st :: en :: _ =>
    match parseI64 st, parseI64 en with
    | some a, some b =>
      if count = ['C'] then some (.TakerTrades, ⟨a, b⟩)
      else if count = ['B'] then some (.MarketBuys, ⟨a, b⟩)
      else if count = ['S'] then some (.MarketSells, ⟨a, b⟩)
      else if count = ['V'] then some (.TradingVolume, ⟨a, b⟩)
      else none
    | _, _ => none
  | _ => none

/-- The shape of one printed output line of `Drop for Processor`:
`intLine n` is the integer `Display` branch (`Trades`, and the literal
`"0"` printed for `Ok(None)` results and parse failures), `volLine v`
the 6-fractional-digit `{:.6}` branch used for volumes. -/
inductive OutLine where
  | intLine (n : Nat)
  | volLine (v : Rat)
deriving DecidableEq, Repr

/-- The join/print step of `Drop for Processor` for one worker result:
`Ok(Some(count))` prints the count, `Ok(None)` prints `0`, an error is
logged and produces no line. -/
def renderLine : Except QErr (Option Count) → Option OutLine
  | .ok (some (.Trades n)) => some (.intLine n)
  | .ok (some (.Volume v)) => some (.volLine v)
  | .ok none => some (.intLine 0)
  | .error _ => none

/-- One worker of `Processor::process_query`: parse the line (a parse
failure is logged and returned as `Ok(None)`), then resolve through the
shared cache. -/
def runLine (env : Env) (cache : Cache) (line : String) :
    Except QErr (Option Count) × Cache :=
  match parseQuery line with
  | none => (.ok none, cache)
  | some (qt, r) =>
    let res := get_count env qt r cache
    (res.1, res.2.cache)

/-- The Processor over a list of input lines: one worker per line
sharing the cache, outputs joined strictly in submission order
(`Drop for Processor` drains the handles in push order).  The model
serializes the workers in submission order, one admissible
interleaving; results are cache-state independent (claim C1), so this
realizes the printed values. -/
def processFrom (env : Env) (cache : Cache) : List String → List (Option OutLine) × Cache
  | [] => ([], cache)
  | line :: rest =>
    let res := runLine env cache line
    let rest2 := processFrom env res.2 rest
    (renderLine res.1 :: rest2.1, rest2.2)

/-- A full Processor run from the fresh (empty) cache. -/
def process_queries (env : Env) (lines : List String) :
    List (Option OutLine) × Cache :=
  processFrom env emptyCache lines

/-! ### Claim C3: the aggregator functions -/

/-- Specification-level formulation (from the claim's words): the
number of distinct `sequence_number` values among the fills with time
in `(range.start, range.end]`, as the cardinality of the set of those
values. -/
def spec_taker_trades (fills : List Fill) (r : TimeRange) : Nat :=
  (((fills.filter (fun f => decide (r.startTs < f.time) && decide (f.time ≤ r.endTs))).map
    (fun f => f.sequence_number)).toFinset).card

/-- Specification-level formulation: the same count additionally
filtered to buy fills (direction `1`). -/
def spec_market_buys (fills : List Fill) (r : TimeRange) : Nat :=
  ((((fills.filter (fun f => decide (r.startTs < f.time) && decide (f.time ≤ r.endTs))).filter
    (fun f => decide (f.direction = 1))).map (fun f => f.sequence_number)).toFinset).card

/-- Specification-level formulation: the same count additionally
filtered to sell fills (direction `-1`). -/
def spec_market_sells (fills : List Fill) (r : TimeRange) : Nat :=
  ((((fills.filter (fun f => decide (r.startTs < f.time) && decide (f.time ≤ r.endTs))).filter
    (fun f => decide (f.direction = -1))).map (fun f => f.sequence_number)).toFinset).card

/-- Specification-level formulation: the sum of the converted
`price * quantity` values over the fills in `(range.start, range.end]`,
silently skipping fills whose conversion fails. -/
def spec_trading_volume (conv : Rat → Option Rat) (fills : List Fill) (r : TimeRange) : Rat :=
  ((fills.filter (fun f => decide (r.startTs < f.time) && decide (f.time ≤ r.endTs))).filterMap
    (fun f => conv (f.price * f.quantity))).sum

/-- Claim C3: on every fill slice and range with representable
endpoints, `taker_trades` returns the number of distinct
`sequence_number` values among fills with time in
`(range.start, range.end]`; `market_buys` and `market_sells` the same
count additionally filtered by direction (buy `1`, sell `-1`); and
`trading_volume` the sum of converted `price * quantity` over the
fills in range, silently skipping fills whose conversion fails.  (On
an unrepresentable endpoint the source functions panic instead; see
claim C10.) -/
theorem c3_aggregators (conv : Rat → Option Rat) (fills : List Fill) (r : TimeRange)
    (hva : validTs r.startTs) (hvb : validTs r.endTs) :
    taker_trades fills r = some (spec_taker_trades fills r) ∧
    market_buys fills r = some (spec_market_buys fills r) ∧
    market_sells fills r = some (spec_market_sells fills r) ∧
    trading_volume conv fills r = some (spec_trading_volume conv fills r) := by
  have hv : validTs r.startTs ∧ validTs r.endTs := ⟨hva, hvb⟩
  refine ⟨?_, ?_, ?_, ?_⟩
  · simp [taker_trades, filter_fills, hv, spec_taker_trades, inRange,
      ← List.card_toFinset]
  · simp [market_buys, filter_fills, hv, spec_market_buys, inRange,
      ← List.card_toFinset]
  · simp [market_sells, filter_fills, hv, spec_market_sells, inRange,
      ← List.card_toFinset]
  · simp only [trading_volume, if_pos hv, spec_trading_volume, Option.some.injEq]
    rfl

/-- Witness for C3 at the specification's example fill set. -/
theorem c3_aggregators_witness :
    taker_trades envW.allFills ⟨50, 150⟩ =
        some (spec_taker_trades envW.allFills ⟨50, 150⟩) ∧
      market_buys envW.allFills ⟨50, 150⟩ =
        some (spec_market_buys envW.allFills ⟨50, 150⟩) ∧
      market_sells envW.allFills ⟨50, 150⟩ =
        some (spec_market_sells envW.allFills ⟨50, 150⟩) ∧
      trading_volume envW.conv envW.allFills ⟨50, 150⟩ =
        some (spec_trading_volume envW.conv envW.allFills ⟨50, 150⟩) :=
  c3_aggregators envW.conv envW.allFills ⟨50, 150⟩ (by decide) (by decide)

/-! ### Claim C7: parse failures -/

/-- Claim C7: a malformed input line (missing or unparsable tokens, or
an unknown kind) is logged, treated as a zero result and printed as the
integer line `0`, the shared cache is untouched, and the remaining
lines are processed exactly as they would have been without it — a
parse error is never fatal.  The statement quantifies over the cache,
so it applies at any position in the input stream. -/
theorem c7_parse_error_zero_line (env : Env) (cache : Cache) (bad : String)
    (lines : List String) (h : parseQuery bad = none) :
    processFrom env cache (bad :: lines) =
      (some (.intLine 0) :: (processFrom env cache lines).1,
        (processFrom env cache lines).2) := by
  simp [processFrom, runLine, h, renderLine]

/-- Witness for C7 on an unknown-kind line followed by a real query. -/
theorem c7_parse_error_zero_line_witness :
    processFrom env0 emptyCache ("X 1 2" :: ["C 50 150"]) =
      (some (.intLine 0) :: (processFrom env0 emptyCache ["C 50 150"]).1,
        (processFrom env0 emptyCache ["C 50 150"]).2) :=
  c7_parse_error_zero_line env0 emptyCache "X 1 2" ["C 50 150"] (by decide)

/-! ### Claims C4 and C6: output lines and failure isolation -/

/-- Per-line output format: a parse failure prints the integer `0`; a
parsed query that produces a line prints in the integer branch for the
trade-count kinds (and for a volume query with no slot pieces), and in
the 6-fractional-digit branch for a volume query over a nonempty
range. -/
def LineOutOK (_env : Env) (line : String) (out : Option OutLine) : Prop :=
  match parseQuery line with
  | none => out = some (.intLine 0)
  | some (qt, r) =>
    ∀ l, out = some l →
      (qt = .TradingVolume → r.startTs < r.endTs → ∃ v, l = .volLine v) ∧
      ((qt = .TradingVolume → ¬ r.startTs < r.endTs) → ∃ n, l = .intLine n)

/-- Per-line failure isolation: a line that parses to a query with
representable timestamps always produces an output line (its
resolution cannot fail). -/
def LineIsolated (_env : Env) (line : String) (out : Option OutLine) : Prop :=
  ∀ qt r, parseQuery line = some (qt, r) → validTs r.startTs → validTs r.endTs →
    out.isSome = true

/-- Master induction over the Processor: one output entry per input
line in submission order, the cache invariant is threaded through, and
each line satisfies the format and isolation properties. -/
theorem processFrom_master (env : Env) :
    ∀ (lines : List String) (cache : Cache), CacheWF env.allFills cache →
      (processFrom env cache lines).1.length = lines.length ∧
      CacheWF env.allFills (processFrom env cache lines).2 ∧
      List.Forall₂
        (fun line out => (SeqTime env.allFills → LineOutOK env line out) ∧
          LineIsolated env line out)
        lines (processFrom env cache lines).1 := by
  intro lines
  induction lines with
  | nil =>
    intro cache hwf
    exact ⟨rfl, hwf, List.Forall₂.nil⟩
  | cons line rest ih =>
    intro cache hwf
    cases hpq : parseQuery line with
    | none =>
      have hrun : processFrom env cache (line :: rest) =
          (some (.intLine 0) :: (processFrom env cache rest).1,
            (processFrom env cache rest).2) := by
        simp [processFrom, runLine, hpq, renderLine]
      obtain ⟨hlen, hwf2, hfa⟩ := ih cache hwf
      rw [hrun]
      refine ⟨by simpa using hlen, hwf2, List.Forall₂.cons ⟨?_, ?_⟩ hfa⟩
      · intro _
        show LineOutOK env line (some (.intLine 0))
        unfold LineOutOK
        rw [hpq]
      · intro qt r hq
        rw [hpq] at hq
        cases hq
    | some qtr =>
      obtain ⟨qt, r⟩ := qtr
      rcases hg : get_count env qt r cache with ⟨res, ex2⟩
      have hspec := get_count_spec env qt r cache hwf
      have hrun : processFrom env cache (line :: rest) =
          (renderLine res :: (processFrom env ex2.cache rest).1,
            (processFrom env ex2.cache rest).2) := by
        simp [processFrom, runLine, hpq, hg]
      cases res with
      | error e =>
        obtain ⟨he, hwf2⟩ := hspec.1 e ex2 hg
        obtain ⟨hlen, hwf3, hfa⟩ := ih ex2.cache hwf2
        rw [hrun]
        refine ⟨by simpa using hlen, hwf3, List.Forall₂.cons ⟨?_, ?_⟩ hfa⟩
        · intro _
          show LineOutOK env line (renderLine (.error e))
          unfold LineOutOK
          rw [hpq]
          intro l hl
          cases hl
        · intro qt2 r2 hq hv1 hv2
          rw [hpq] at hq
          injection hq with hq
          injection hq with hq1 hq2
          subst hq1 hq2
          obtain ⟨cnt, ex3, hok⟩ := hspec.2.2 hv1 hv2
          rw [hg] at hok
          simp only [Prod.mk.injEq] at hok
          obtain ⟨h1', _⟩ := hok
          cases h1'
      | ok cnt =>
        obtain ⟨hwf2, hcnt, heq⟩ := hspec.2.1 cnt ex2 hg
        obtain ⟨hlen, hwf3, hfa⟩ := ih ex2.cache hwf2
        rw [hrun]
        refine ⟨by simpa using hlen, hwf3, List.Forall₂.cons ⟨?_, ?_⟩ hfa⟩
        · intro hst
          show LineOutOK env line (renderLine (.ok cnt))
          unfold LineOutOK
          rw [hpq]
          intro l hl
          cases cnt with
          | none =>
            simp only [renderLine, Option.some.injEq] at hl
            subst hl
            constructor
            · intro hqt hlt
              exact absurd ((heq hst).1 hlt) (by simp)
            · intro _
              exact ⟨0, rfl⟩
          | some c =>
            cases c with
            | Trades n =>
              simp only [renderLine, Option.some.injEq] at hl
              subst hl
              constructor
              · intro hqt hlt
                have := hcnt (.Trades n) rfl
                rw [hqt] at this
                cases this
              · intro _
                exact ⟨n, rfl⟩
            | Volume v =>
              simp only [renderLine, Option.some.injEq] at hl
              subst hl
              constructor
              · intro _ _
                exact ⟨v, rfl⟩
              · intro h2
                have htag := hcnt (.Volume v) rfl
                have hqt : qt = .TradingVolume := by
                  cases qt <;> simp_all [Count.tag, qtTag]
                have hnlt := h2 hqt
                have := (heq hst).2 hnlt
                cases this
        · intro qt2 r2 hq hv1 hv2
          cases cnt with
          | none => rfl
          | some c => cases c <;> rfl

/-- Counterexample to claim C4 as stated: the volume query `V 100 50`
(start ≥ end, so no slot pieces) resolves to `Ok(None)` and is printed
through the integer branch as the line `0`, not as a fixed-point
decimal with 6 fractional digits; and the query
`C -9000000000000 -8999999999999` (unrepresentable timestamps) fails
its backend fetch and produces no output line at all, contradicting
"exactly one output line per input query". -/
theorem c4_counterexample :
    (process_queries env0 ["V 100 50"]).1 = [some (.intLine 0)] ∧
      (process_queries env0 ["C -9000000000000 -8999999999999"]).1 = [none] := by
  refine ⟨by decide, by decide⟩

/-- Claim C4 (amended): the Processor emits at most one output line per
input line, in submission order (the handles are joined in push order),
and exactly one for every line whose resolution does not fail; a line
for a trade-count query (C, B, S), a parse failure, or a volume query
with an empty range prints through the integer branch, while a volume
query over a nonempty range prints through the 6-fractional-digit
branch.  Completion order of the concurrently executing workers cannot
affect this: outputs are collected at join time in submission order,
and the printed values are cache-state independent (claim C1). -/
theorem c4_ordered_output_format (env : Env) (hst : SeqTime env.allFills)
    (lines : List String) (cache : Cache) (hwf : CacheWF env.allFills cache) :
    (processFrom env cache lines).1.length = lines.length ∧
      List.Forall₂ (LineOutOK env) lines (processFrom env cache lines).1 := by
  obtain ⟨hlen, _, hfa⟩ := processFrom_master env lines cache hwf
  refine ⟨hlen, List.Forall₂.imp ?_ hfa⟩
  intro a b h
  exact h.1 hst

/-- Witness for the amended C4 on the example scenario's query list. -/
theorem c4_ordered_output_format_witness :
    (processFrom envW emptyCache ["V 50 150", "C 50 150", "V 100 50"]).1.length =
        (["V 50 150", "C 50 150", "V 100 50"] : List String).length ∧
      List.Forall₂ (LineOutOK envW) ["V 50 150", "C 50 150", "V 100 50"]
        (processFrom envW emptyCache ["V 50 150", "C 50 150", "V 100 50"]).1 :=
  c4_ordered_output_format envW (by decide) ["V 50 150", "C 50 150", "V 100 50"]
    emptyCache (by decide)

/-- Claim C6: a backend fetch failure aborts that query's resolution
and the error propagates to the worker (first conjunct: a concrete
two-piece query whose second piece has an unrepresentable end
timestamp fails with a backend error, while the first piece's
completed fetch is already inserted and is not rolled back); the
failed query's output line is dropped (`renderLine` of an error is
`none`, the Processor logs it), and no other in-flight or subsequent
query is aborted: the Processor still emits one entry per line, the
cache invariant survives the failure, and every line with a parseable
query over representable timestamps still produces its output line. -/
theorem c6_failure_semantics :
    ((get_count env0 .TakerTrades ⟨8210266874999, 8210266876800⟩ emptyCache).1 =
        .error .backend ∧
      (get_count env0 .TakerTrades ⟨8210266874999, 8210266876800⟩
          emptyCache).2.cache.entries.any
        (fun kb => kb.2.any
          (fun e => decide (e.1 = ⟨8210266874999, 8210266875000⟩))) = true) ∧
    ∀ (env : Env) (lines : List String) (cache : Cache),
      CacheWF env.allFills cache →
      (processFrom env cache lines).1.length = lines.length ∧
      CacheWF env.allFills (processFrom env cache lines).2 ∧
      List.Forall₂ (LineIsolated env) lines (processFrom env cache lines).1 := by
  constructor
  · refine ⟨by decide, by decide⟩
  · intro env lines cache hwf
    obtain ⟨hlen, hwf2, hfa⟩ := processFrom_master env lines cache hwf
    refine ⟨hlen, hwf2, List.Forall₂.imp ?_ hfa⟩
    intro a b h
    exact h.2

/-- Witness for C6: a failing query between two valid ones still lets
both valid ones produce their lines. -/
theorem c6_failure_semantics_witness :
    (processFrom env0 emptyCache
        ["C 50 150", "C -9000000000000 -8999999999999", "C 0 100"]).1.length =
      (["C 50 150", "C -9000000000000 -8999999999999", "C 0 100"] :
        List String).length ∧
    CacheWF env0.allFills (processFrom env0 emptyCache
        ["C 50 150", "C -9000000000000 -8999999999999", "C 0 100"]).2 ∧
    List.Forall₂ (LineIsolated env0)
      ["C 50 150", "C -9000000000000 -8999999999999", "C 0 100"]
      (processFrom env0 emptyCache
        ["C 50 150", "C -9000000000000 -8999999999999", "C 0 100"]).1 :=
  c6_failure_semantics.2 env0
    ["C 50 150", "C -9000000000000 -8999999999999", "C 0 100"] emptyCache (by decide)
